import Mathlib

/-!
# Verification of the shadow-workspace diffing core and staged-edit ledger

Shallow embedding of `src/core/shadow/diffEngine.ts` and
`src/core/shadow/shadowWorkspace.ts`. Texts are modelled as `List Char`
(JavaScript strings are sequences of characters); `null`/`undefined`
values are modelled with `Option`.
-/

set_option autoImplicit false

/-- A text (file content, path, line) is a sequence of characters. -/
abbrev Text := List Char

/-- A single line of text (contains no newline character). -/
abbrev Line := List Char

/-- The characters of a Lean string literal. -/
def strChars (s : String) : List Char := s.data

/-- JavaScript `s.split('\n')` on a character list: always returns at least
one (possibly empty) line. -/
def splitNl : List Char → List Line
  | [] => [[]]
  | c :: rest =>
    match splitNl rest with
    | [] => [[c]]
    | l :: ls => if c = '\n' then [] :: l :: ls else (c :: l) :: ls

/-- JavaScript `lines.join('\n')`. -/
def joinNl (lines : List Line) : List Char := List.intercalate [Char.ofNat 10] lines

theorem splitNl_ne_nil (s : List Char) : splitNl s ≠ [] := by
  cases s with
  | nil => simp [splitNl]
  | cons c rest =>
    simp only [splitNl]
    cases splitNl rest with
    | nil => simp
    | cons l ls => by_cases h : c = '\n' <;> simp [h]

theorem splitNl_cons_eq (c : Char) (rest : List Char) (l : Line) (ls : List Line)
    (h : splitNl rest = l :: ls) :
    splitNl (c :: rest) = if c = '\n' then [] :: l :: ls else (c :: l) :: ls := by
  simp only [splitNl, h]

theorem joinNl_nil : joinNl [] = [] := by simp [joinNl, List.intercalate]

theorem joinNl_cons (l : Line) (ls : List Line) (h : ls ≠ []) :
    joinNl (l :: ls) = l ++ Char.ofNat 10 :: joinNl ls := by
  cases ls with
  | nil => exact absurd rfl h
  | cons m ms =>
    simp [joinNl, List.intercalate, List.intersperse]

theorem joinNl_singleton (l : Line) : joinNl [l] = l := by
  simp [joinNl, List.intercalate]

/-- Splitting and re-joining reproduces the original text. -/
theorem joinNl_splitNl (s : List Char) : joinNl (splitNl s) = s := by
  induction s with
  | nil => simp [splitNl, joinNl_singleton]
  | cons c rest ih =>
    rcases hrest : splitNl rest with _ | ⟨l, ls⟩
    · exact absurd hrest (splitNl_ne_nil rest)
    · rw [splitNl_cons_eq c rest l ls hrest]
      by_cases h : c = '\n'
      · subst h
        rw [if_pos rfl, joinNl_cons _ _ (by simp), ← hrest, ih]
        rfl
      · rw [if_neg h]
        cases ls with
        | nil =>
          rw [joinNl_singleton]
          rw [hrest, joinNl_singleton] at ih
          simp [ih]
        | cons m ms =>
          rw [joinNl_cons (c :: l) (m :: ms) (by simp), ← ih, hrest,
            joinNl_cons l (m :: ms) (by simp)]
          simp

/-- Every line produced by `splitNl` is newline-free. -/
theorem splitNl_no_newline (s : List Char) :
    ∀ l ∈ splitNl s, Char.ofNat 10 ∉ l := by
  induction s with
  | nil => simp [splitNl]
  | cons c rest ih =>
    rcases hrest : splitNl rest with _ | ⟨l, ls⟩
    · exact absurd hrest (splitNl_ne_nil rest)
    · rw [splitNl_cons_eq c rest l ls hrest]
      intro x hx
      have ihl : Char.ofNat 10 ∉ l := ih l (by simp [hrest])
      have ihls : ∀ y ∈ ls, Char.ofNat 10 ∉ y := fun y hy => ih y (by simp [hrest, hy])
      by_cases h : c = '\n'
      · simp only [if_pos h] at hx
        rcases List.mem_cons.mp hx with hx | hx
        · simp [hx]
        · rcases List.mem_cons.mp hx with hx | hx
          · exact hx ▸ ihl
          · exact ihls x hx
      · simp only [if_neg h] at hx
        rcases List.mem_cons.mp hx with hx | hx
        · subst hx
          intro hmem
          rcases List.mem_cons.mp hmem with h10 | h10
          · exact h (by simpa [show Char.ofNat 10 = '\n' from rfl] using h10.symm)
          · exact ihl h10
        · exact ihls x hx

theorem splitNl_append_line (l : Line) (t : List Char) (hl : Char.ofNat 10 ∉ l) :
    splitNl (l ++ Char.ofNat 10 :: t) = l :: splitNl t := by
  induction l with
  | nil =>
    rcases hsp : splitNl t with _ | ⟨a, as⟩
    · exact absurd hsp (splitNl_ne_nil t)
    · simpa using splitNl_cons_eq (Char.ofNat 10) t a as hsp
  | cons c cs ihc =>
    have hc : c ≠ '\n' := fun h => hl (by simp [h])
    have hcs : Char.ofNat 10 ∉ cs := fun h => hl (by simp [h])
    have := ihc hcs
    rcases hsp : splitNl (cs ++ Char.ofNat 10 :: t) with _ | ⟨a, as⟩
    · exact absurd hsp (splitNl_ne_nil _)
    · rw [hsp] at this
      have h2 := splitNl_cons_eq c (cs ++ Char.ofNat 10 :: t) a as hsp
      rw [if_neg hc] at h2
      have ha : a = cs := by
        injection this with h3 _
      have has : as = splitNl t := by
        injection this with _ h4
      simp only [List.cons_append, h2, ha, has]

/-- Splitting a single newline-free line yields just that line. -/
theorem splitNl_single (l : Line) (hl : Char.ofNat 10 ∉ l) : splitNl l = [l] := by
  induction l with
  | nil => simp [splitNl]
  | cons c cs ihc =>
    have hc : c ≠ '\n' := fun h => hl (by simp [h])
    have hcs : Char.ofNat 10 ∉ cs := fun h => hl (by simp [h])
    have := ihc hcs
    have h2 := splitNl_cons_eq c cs cs [] this
    rw [if_neg hc] at h2
    exact h2

/-- Re-splitting a joined list of newline-free lines recovers the lines. -/
theorem splitNl_joinNl (ls : List Line) (hne : ls ≠ [])
    (hnl : ∀ l ∈ ls, Char.ofNat 10 ∉ l) : splitNl (joinNl ls) = ls := by
  induction ls with
  | nil => exact absurd rfl hne
  | cons l rest ih =>
    cases rest with
    | nil =>
      rw [joinNl_singleton]
      exact splitNl_single l (hnl l (by simp))
    | cons m ms =>
      rw [joinNl_cons _ _ (by simp),
        splitNl_append_line l _ (hnl l (by simp)),
        ih (by simp) (fun x hx => hnl x (by simp [hx]))]

/-! ## Diff engine data model (`src/core/shadow/types.ts`) -/

/-- Kind of a diff line (`DiffLine.type`); the engine emits only these three. -/
inductive DiffLineType where
  | add
  | remove
  | unchanged
deriving Repr, DecidableEq, Inhabited

/-- One line of a diff (`DiffLine`). -/
structure DiffLine where
  type : DiffLineType
  content : Line
  oldLineNumber : Option Nat := none
  newLineNumber : Option Nat := none
deriving Repr, DecidableEq, Inhabited

/-- A contiguous block of a diff (`DiffHunk`); `oldStart`/`newStart` are 1-indexed. -/
structure DiffHunk where
  oldStart : Nat
  oldLines : Nat
  newStart : Nat
  newLines : Nat
  lines : List DiffLine
deriving Repr, DecidableEq, Inhabited

/-- Output of the diff engine (`FileDiff`). -/
structure FileDiff where
  path : Text
  hunks : List DiffHunk
  additions : Nat
  deletions : Nat
  isBinary : Bool
  isNewFile : Bool
  isDeleted : Bool
deriving Repr, DecidableEq, Inhabited

/-! ## Binary detection (`DiffEngine.detectBinary`, diffEngine.ts lines 64-77) -/

/-- A control character counted by `detectBinary`: code point below 32,
excluding tab (9), LF (10) and CR (13). -/
def isControlChar (c : Char) : Bool :=
  c.toNat < 32 && c.toNat != 9 && c.toNat != 10 && c.toNat != 13

/-- `DiffEngine.detectBinary`: `!content` (absent or empty) is non-binary;
otherwise sample the first 8000 characters, report binary on any NUL, else
when the control-character fraction exceeds 10%.  The source loop returns
`true` at the first NUL and otherwise counts every control character, which
is equivalent to this formulation; the floating comparison
`nonPrintable / sample.length > 0.1` agrees with the exact rational
comparison `10 * nonPrintable > sample.length` at every reachable input
(the two sides differ by at least `1 / (10 * length)` when distinct, far
above double rounding error, and round to equal doubles when equal). -/
def detectBinary : Option Text → Bool
  | none => false
  | some content =>
    if content = [] then false
    else
      let sample := content.take 8000
      if sample.any (fun c => c.toNat == 0) then true
      else
        let nonPrintable := (sample.filter isControlChar).length
        decide (10 * nonPrintable > sample.length)

/-- `original ? original.split('\n') : []` — JS treats both `null` and the
empty string as falsy (diffEngine.ts lines 36-37). -/
def linesOfContent : Option Text → List Line
  | none => []
  | some s => if s = [] then [] else splitNl s

/-! ## LCS via dynamic programming (`DiffEngine.computeLCS`, lines 224-262) -/

/-- The DP table entry `dp[i][j]` of `computeLCS`: length of the longest
common subsequence of the first `i` old lines and the first `j` new lines
(diffEngine.ts lines 234-244). -/
def lcsDp (old new : List Line) : Nat → Nat → Nat
  | 0, _ => 0
  | _ + 1, 0 => 0
  | i + 1, j + 1 =>
    if old[i]? = new[j]? then lcsDp old new i j + 1
    else max (lcsDp old new i (j + 1)) (lcsDp old new (i + 1) j)

/-- The backtracking loop of `computeLCS` (diffEngine.ts lines 247-259):
from `(i, j)` down to the table border; a diagonal step when the two lines
are equal, otherwise toward the larger neighbour, stepping in the `j`
(new/column) direction on ties since the source condition is
`dp[i-1][j] > dp[i][j-1]`. -/
def lcsBacktrack (old new : List Line) : Nat → Nat → List (Nat × Nat)
  | 0, _ => []
  | _ + 1, 0 => []
  | i + 1, j + 1 =>
    if old[i]? = new[j]? then lcsBacktrack old new i j ++ [(i, j)]
    else if lcsDp old new i (j + 1) > lcsDp old new (i + 1) j then
      lcsBacktrack old new i (j + 1)
    else
      lcsBacktrack old new (i + 1) j
termination_by i j => i + j

/-- The dynamic-programming branch of `computeLCS`. -/
def computeLCSDP (old new : List Line) : List (Nat × Nat) :=
  lcsBacktrack old new old.length new.length

/-! ## Patience fallback (`computeLCSPatience`/`computeLIS`, lines 268-335) -/

/-- The sorted match list of `computeLCSPatience` (lines 270-292): pairs
`(i, j)` where the line at old index `i` occurs exactly once in the old
text and exactly once in the new text, at new index `j`.  The source
collects these pairs from two occurrence maps and then sorts by old index;
since each qualifying line has exactly one old index and the old indices
are pairwise distinct, enumerating old indices in increasing order yields
exactly that sorted list, and `newUnique.get(line)![0]` is the first (only)
occurrence, i.e. `indexOf`. -/
def patienceMatches (old new : List Line) : List (Nat × Nat) :=
  (List.range old.length).filterMap fun i =>
    let line := old.getD i []
    if old.count line = 1 ∧ new.count line = 1 then
      some (i, new.indexOf line)
    else none

/-- One outer iteration `i` of `computeLIS` (lines 313-319): the inner loop
over `j < i` returns the final `dp[i]` (starting from 1) and `prev[i]`
(starting from `-1`, modelled as `none`). -/
def lisInner (arr : List Nat) (dp : List Nat) (i : Nat) : Nat × Option Nat :=
  (List.range i).foldl
    (fun st j =>
      if arr.getD j 0 < arr.getD i 0 ∧ dp.getD j 0 + 1 > st.1 then
        (dp.getD j 0 + 1, some j)
      else st)
    (1, none)

/-- One outer iteration of `computeLIS` (lines 313-323): extend `dp` and
`prev` with slot `i` and update `maxLen`/`maxIdx`. -/
def lisStep (arr : List Nat) (st : List Nat × List (Option Nat) × Nat × Nat)
    (i : Nat) : List Nat × List (Option Nat) × Nat × Nat :=
  let dpi := lisInner arr st.1 i
  let dp := st.1 ++ [dpi.1]
  let prev := st.2.1 ++ [dpi.2]
  if dpi.1 > st.2.2.1 then (dp, prev, dpi.1, i)
  else (dp, prev, st.2.2.1, st.2.2.2)

/-- The `dp`/`prev`/`maxLen`/`maxIdx` state after the outer loop of
`computeLIS` (lines 306-324).  The source initializes full arrays up front
and mutates slot `i` during iteration `i`; since iteration `i` reads only
slots `j < i`, growing the arrays one slot per iteration is equivalent. -/
def lisState (arr : List Nat) : List Nat × List (Option Nat) × Nat × Nat :=
  (List.range' 1 (arr.length - 1)).foldl (lisStep arr) ([1], [none], 1, 0)

/-- The backtracking loop of `computeLIS` (lines 327-332):
`while (idx !== -1) { result.unshift(idx); idx = prev[idx]; }`.
`fuel ≥ idx` suffices because `prev[i] < i` always holds. -/
def lisBacktrack (prev : List (Option Nat)) : Nat → Nat → List Nat
  | 0, idx => [idx]
  | fuel + 1, idx =>
    match prev.getD idx none with
    | none => [idx]
    | some j => lisBacktrack prev fuel j ++ [idx]

/-- `DiffEngine.computeLIS` (lines 303-335). -/
def computeLIS (arr : List Nat) : List Nat :=
  if arr = [] then []
  else
    let st := lisState arr
    lisBacktrack st.2.1 st.2.2.2 st.2.2.2

/-- `DiffEngine.computeLCSPatience` (lines 268-298). -/
def computeLCSPatience (old new : List Line) : List (Nat × Nat) :=
  let ms := patienceMatches old new
  let lis := computeLIS (ms.map (fun m => m.2))
  lis.map fun idx => ms.getD idx (0, 0)

/-- `DiffEngine.computeLCS` (lines 224-262): patience fallback above the
`m * n > 10_000_000` threshold, classic DP below it. -/
def computeLCS (old new : List Line) : List (Nat × Nat) :=
  if old.length * new.length > 10000000 then computeLCSPatience old new
  else computeLCSDP old new

/-! ## Hunk grouping (`DiffEngine.computeHunks`, diffEngine.ts lines 82-206) -/

/-- Count trailing unchanged lines (`countTrailingContext`, lines 211-218). -/
def countTrailingContext (lines : List DiffLine) : Nat :=
  (lines.reverse.takeWhile (fun l => l.type = DiffLineType.unchanged)).length

/-- Mutable walk state: the currently open hunk and the flushed hunks. -/
structure HunkState where
  currentHunk : Option DiffHunk
  hunks : List DiffHunk
deriving Repr, DecidableEq, Inhabited

/-- The trimming loop of `flushHunk` (lines 96-108): pop trailing unchanged
lines (decrementing both counts) while more than `contextLines = 3` remain. -/
def trimHunk (h : DiffHunk) : DiffHunk :=
  if h.lines ≠ [] ∧ (h.lines.getLastD default).type = DiffLineType.unchanged ∧
      countTrailingContext h.lines > 3 then
    trimHunk { h with
               lines := h.lines.dropLast
               oldLines := h.oldLines - 1
               newLines := h.newLines - 1 }
  else h
termination_by h.lines.length
decreasing_by
  rename_i hcond
  have hne := hcond.1
  simp only [List.length_dropLast]
  have : 0 < h.lines.length := List.length_pos.mpr hne
  omega

/-- `flushHunk` (lines 93-114): trim the open hunk's trailing context and
emit it unless every line is unchanged. -/
def flushHunk (st : HunkState) : HunkState :=
  match st.currentHunk with
  | none => st
  | some h =>
    if h.lines = [] then { st with currentHunk := none }
    else
      let h := trimHunk h
      { currentHunk := none,
        hunks :=
          if h.lines.any (fun l => l.type ≠ DiffLineType.unchanged) then
            st.hunks ++ [h]
          else st.hunks }

/-- `ensureHunk(oldStart, newStart)` (lines 116-126): open a hunk at the
1-indexed current positions if none is open. -/
def ensureHunk (st : HunkState) (oldIdx newIdx : Nat) : HunkState :=
  match st.currentHunk with
  | some _ => st
  | none =>
    { st with currentHunk := some ⟨oldIdx + 1, 0, newIdx + 1, 0, []⟩ }

/-- Append a line to the open hunk, bumping the old/new line counts. -/
def pushLine (st : HunkState) (l : DiffLine) (dOld dNew : Nat) : HunkState :=
  match st.currentHunk with
  | some h =>
    { st with currentHunk := some { h with
        lines := h.lines ++ [l]
        oldLines := h.oldLines + dOld
        newLines := h.newLines + dNew } }
  | none => st

/-- A `remove` diff line for old index `i` (lines 135-139). -/
def removeLine (old : List Line) (i : Nat) : DiffLine :=
  { type := DiffLineType.remove, content := old.getD i [],
    oldLineNumber := some (i + 1) }

/-- An `add` diff line for new index `j` (lines 147-151). -/
def addLine (new : List Line) (j : Nat) : DiffLine :=
  { type := DiffLineType.add, content := new.getD j [],
    newLineNumber := some (j + 1) }

/-- The deletion loop `while (oldIdx < target)` (lines 133-142 and 179-188):
each iteration opens a hunk if needed at the current positions and pushes a
`remove` line. -/
def pushRemoves (old : List Line) (st : HunkState) (oldIdx target newIdx : Nat) :
    HunkState :=
  (List.range' oldIdx (target - oldIdx)).foldl
    (fun st i => pushLine (ensureHunk st i newIdx) (removeLine old i) 1 0) st

/-- The addition loop `while (newIdx < target)` (lines 145-154 and 191-200);
`oldIdx` is fixed for the whole loop. -/
def pushAdds (new : List Line) (st : HunkState) (oldIdx newIdx target : Nat) :
    HunkState :=
  (List.range' newIdx (target - newIdx)).foldl
    (fun st j => pushLine (ensureHunk st oldIdx j) (addLine new j) 0 1) st

/-- Pushing the common (unchanged) line when a hunk is open, then flushing
if the trailing context exceeds `contextLines * 2 = 6` (lines 156-172). -/
def pushCommon (old : List Line) (st : HunkState) (oldIdx newIdx : Nat) :
    HunkState :=
  match st.currentHunk with
  | none => st
  | some h =>
    let h := { h with
      lines := h.lines ++
        [{ type := DiffLineType.unchanged, content := old.getD oldIdx [],
           oldLineNumber := some (oldIdx + 1), newLineNumber := some (newIdx + 1) }],
      oldLines := h.oldLines + 1, newLines := h.newLines + 1 }
    let st := { st with currentHunk := some h }
    if countTrailingContext h.lines > 6 then flushHunk st else st

/-- The tail of the main loop of `computeHunks` (lines 177-201): emit the
remaining deletions, then the remaining additions.  After this the loop
condition fails and the walk ends. -/
def hunkRemainder (old new : List Line) (st : HunkState) (oldIdx newIdx : Nat) :
    HunkState :=
  let st := pushRemoves old st oldIdx old.length newIdx
  pushAdds new st (max oldIdx old.length) newIdx new.length

/-- The main loop of `computeHunks` (lines 128-202), with `lcsIdx` modelled
by consuming the alignment list. -/
def hunkWalk (old new : List Line) (oldIdx newIdx : Nat) (lcs : List (Nat × Nat))
    (st : HunkState) : HunkState :=
  if oldIdx < old.length ∨ newIdx < new.length then
    match lcs with
    | (lcsOld, lcsNew) :: lcsRest =>
      if oldIdx < old.length ∧ newIdx < new.length then
        let st := pushRemoves old st oldIdx lcsOld newIdx
        let oldIdx := max oldIdx lcsOld
        let st := pushAdds new st oldIdx newIdx lcsNew
        let newIdx := max newIdx lcsNew
        let st := pushCommon old st oldIdx newIdx
        hunkWalk old new (oldIdx + 1) (newIdx + 1) lcsRest st
      else hunkRemainder old new st oldIdx newIdx
    | [] => hunkRemainder old new st oldIdx newIdx
  else st
termination_by lcs.length

/-- `DiffEngine.computeHunks` (lines 82-206). -/
def computeHunks (old new : List Line) : List DiffHunk :=
  let lcs := computeLCS old new
  (flushHunk (hunkWalk old new 0 0 lcs ⟨none, []⟩)).hunks

/-! ## `DiffEngine.computeDiff` (diffEngine.ts lines 14-59) -/

/-- Number of `add` lines in a hunk list. -/
def countAdditions (hunks : List DiffHunk) : Nat :=
  (hunks.map (fun h => (h.lines.filter (fun l => l.type = DiffLineType.add)).length)).sum

/-- Number of `remove` lines in a hunk list. -/
def countDeletions (hunks : List DiffHunk) : Nat :=
  (hunks.map (fun h => (h.lines.filter (fun l => l.type = DiffLineType.remove)).length)).sum

/-- `DiffEngine.computeDiff`. -/
def computeDiff (path : Text) (original modified : Option Text) : FileDiff :=
  let isNewFile := original = none ∨ original = some []
  let isDeleted := modified = none
  if detectBinary original || detectBinary modified then
    { path := path, hunks := [], additions := 0, deletions := 0,
      isBinary := true, isNewFile := isNewFile, isDeleted := isDeleted }
  else
    let oldLines := linesOfContent original
    let newLines := linesOfContent modified
    let hunks := computeHunks oldLines newLines
    { path := path, hunks := hunks, additions := countAdditions hunks,
      deletions := countDeletions hunks, isBinary := false,
      isNewFile := isNewFile, isDeleted := isDeleted }

/-! ## Rendering (`DiffEngine.formatUnifiedDiff`, diffEngine.ts lines 340-367) -/

/-- Decimal digits of a natural number, most significant first
(JavaScript template-literal number rendering). -/
def repNat (n : Nat) : List Char :=
  if n < 10 then [Char.ofNat (48 + n)]
  else repNat (n / 10) ++ [Char.ofNat (48 + n % 10)]
termination_by n
decreasing_by
  rename_i h
  exact Nat.div_lt_self (by omega) (by omega)

/-- The `+`/`-`/space marker of a rendered diff line (lines 351-362). -/
def tagChar : DiffLineType → Char
  | DiffLineType.add => '+'
  | DiffLineType.remove => '-'
  | DiffLineType.unchanged => ' '

/-- The `@@ -oldStart,oldLines +newStart,newLines @@` header (line 350). -/
def hunkHeader (h : DiffHunk) : Line :=
  strChars "@@ -" ++ repNat h.oldStart ++ [','] ++ repNat h.oldLines ++
    strChars " +" ++ repNat h.newStart ++ [','] ++ repNat h.newLines ++
    strChars " @@"

/-- The rendered lines of one hunk: header then tagged lines. -/
def hunkRender (h : DiffHunk) : List Line :=
  hunkHeader h :: h.lines.map (fun l => tagChar l.type :: l.content)

/-- `DiffEngine.formatUnifiedDiff`. -/
def formatUnifiedDiff (diff : FileDiff) : Text :=
  if diff.isBinary then
    strChars "Binary file " ++ diff.path ++ strChars " differs"
  else
    joinNl ((strChars "--- a/" ++ diff.path) :: (strChars "+++ b/" ++ diff.path) ::
      (diff.hunks.map hunkRender).flatten)

/-! ## Unified-patch application

`formatUnifiedDiff` output is consumed "as a patch".  The repository does
not ship a patch applier, so the standard unified-diff semantics is
modelled here: skip the two `---`/`+++` file-header lines, then repeatedly
read a `@@ -oldStart,oldLines +newStart,newLines @@` header followed by
exactly as many tagged body lines as the header counts announce; apply the
hunks left to right, copying unpatched old lines verbatim, checking that
every context (space) and removal (`-`) line matches the old text. -/

/-- Decimal digit test. -/
def isDigitChar (c : Char) : Bool := 48 ≤ c.toNat && c.toNat ≤ 57

/-- Value of a decimal digit string, most significant first. -/
def digitsToNat (l : List Char) : Nat :=
  l.foldl (fun acc c => 10 * acc + (c.toNat - 48)) 0

/-- Read a nonempty run of leading digits, returning its value and the rest. -/
def parseNatSeg (l : List Char) : Option (Nat × List Char) :=
  let ds := l.takeWhile isDigitChar
  if ds = [] then none else some (digitsToNat ds, l.dropWhile isDigitChar)

/-- Parse a `@@ -a,b +c,d @@` hunk header. -/
def parseHunkHeader (l : Line) : Option (Nat × Nat × Nat × Nat) :=
  match l with
  | '@' :: '@' :: ' ' :: '-' :: r0 =>
    match parseNatSeg r0 with
    | some (a, ',' :: r1) =>
      match parseNatSeg r1 with
      | some (b, ' ' :: '+' :: r2) =>
        match parseNatSeg r2 with
        | some (c, ',' :: r3) =>
          match parseNatSeg r3 with
          | some (d, [' ', '@', '@']) => some (a, b, c, d)
          | _ => none
        | _ => none
      | _ => none
    | _ => none
  | _ => none

/-- A parsed hunk: header numbers plus tagged body lines. -/
structure ParsedHunk where
  oldStart : Nat
  oldLen : Nat
  newStart : Nat
  newLen : Nat
  body : List (DiffLineType × Line)
deriving Repr, DecidableEq, Inhabited

/-- Classify a rendered body line by its first character. -/
def parseTag (l : Line) : Option (DiffLineType × Line) :=
  match l with
  | [] => none
  | c :: content =>
    if c = ' ' then some (DiffLineType.unchanged, content)
    else if c = '-' then some (DiffLineType.remove, content)
    else if c = '+' then some (DiffLineType.add, content)
    else none

/-- Read hunk body lines until the old and new line counters are both
exhausted; a space line consumes both counters, `-` the old one, `+` the
new one. -/
def parseBody : List Line → Nat → Nat → Option (List (DiffLineType × Line) × List Line)
  | lines, o, n =>
    if o = 0 ∧ n = 0 then some ([], lines)
    else
      match lines with
      | [] => none
      | l :: rest =>
        match parseTag l with
        | none => none
        | some (DiffLineType.unchanged, content) =>
          match o, n with
          | o + 1, n + 1 =>
            (parseBody rest o n).map
              (fun p => ((DiffLineType.unchanged, content) :: p.1, p.2))
          | _, _ => none
        | some (DiffLineType.remove, content) =>
          match o with
          | o + 1 =>
            (parseBody rest o n).map
              (fun p => ((DiffLineType.remove, content) :: p.1, p.2))
          | 0 => none
        | some (DiffLineType.add, content) =>
          match n with
          | n + 1 =>
            (parseBody rest o n).map
              (fun p => ((DiffLineType.add, content) :: p.1, p.2))
          | 0 => none

theorem parseBody_length (lines : List Line) (o n : Nat)
    (b : List (DiffLineType × Line)) (rest : List Line)
    (h : parseBody lines o n = some (b, rest)) : rest.length ≤ lines.length := by
  induction lines generalizing o n b rest with
  | nil =>
    rw [parseBody] at h
    split at h
    · simp at h
      simp [h.2]
    · exact absurd h (by simp)
  | cons l tl ih =>
    rw [parseBody] at h
    split at h
    · simp at h
      simp [h.2]
    · rcases htag : parseTag l with _ | ⟨t, content⟩ <;> rw [htag] at h
      · exact absurd h (by simp)
      · cases t with
        | unchanged =>
          match o, n with
          | 0, 0 => exact absurd h (by simp)
          | o + 1, 0 => exact absurd h (by simp)
          | 0, n + 1 => exact absurd h (by simp)
          | o + 1, n + 1 =>
            simp only [] at h
            rcases hp : parseBody tl o n with _ | ⟨b2, r2⟩ <;> rw [hp] at h
            · exact absurd h (by simp)
            · simp at h
              have := ih o n b2 r2 hp
              rw [← h.2]
              simp
              omega
        | remove =>
          match o with
          | 0 => exact absurd h (by simp)
          | o + 1 =>
            simp only [] at h
            rcases hp : parseBody tl o n with _ | ⟨b2, r2⟩ <;> rw [hp] at h
            · exact absurd h (by simp)
            · simp at h
              have := ih o n b2 r2 hp
              rw [← h.2]
              simp
              omega
        | add =>
          match n with
          | 0 => exact absurd h (by simp)
          | n + 1 =>
            simp only [] at h
            rcases hp : parseBody tl o n with _ | ⟨b2, r2⟩ <;> rw [hp] at h
            · exact absurd h (by simp)
            · simp at h
              have := ih o n b2 r2 hp
              rw [← h.2]
              simp
              omega

/-- Parse a sequence of hunk blocks: each a header line followed by its
counted body lines. -/
def parseHunks (lines : List Line) : Option (List ParsedHunk) :=
  match lines with
  | [] => some []
  | l :: rest =>
    match parseHunkHeader l with
    | none => none
    | some hdr =>
      match hb : parseBody rest hdr.2.1 hdr.2.2.2 with
      | none => none
      | some br =>
        match parseHunks br.2 with
        | none => none
        | some hs =>
          some ({ oldStart := hdr.1, oldLen := hdr.2.1, newStart := hdr.2.2.1,
                  newLen := hdr.2.2.2, body := br.1 } :: hs)
termination_by lines.length
decreasing_by
  have h2 := parseBody_length _ _ _ _ _ hb
  simp
  omega

/-- Apply the tagged body lines of a hunk at old-line index `pos`:
`add` emits its content, `remove` consumes a matching old line, `unchanged`
checks and emits the matching old line.  Returns the emitted lines and the
next unread old index; fails when a context or removal line disagrees with
the old text. -/
def applyBody (old : List Line) : Nat → List (DiffLineType × Line) → Option (List Line × Nat)
  | pos, [] => some ([], pos)
  | pos, (t, c) :: rest =>
    match t with
    | DiffLineType.add =>
      (applyBody old pos rest).map (fun p => (c :: p.1, p.2))
    | DiffLineType.remove =>
      if old[pos]? = some c then applyBody old (pos + 1) rest else none
    | DiffLineType.unchanged =>
      if old[pos]? = some c then
        (applyBody old (pos + 1) rest).map (fun p => (c :: p.1, p.2))
      else none

/-- Apply parsed hunks left to right from old-line index `pos`, copying
the unpatched gap before each hunk and the remainder after the last one. -/
def applyHunks (old : List Line) : Nat → List ParsedHunk → Option (List Line)
  | pos, [] => some (old.drop pos)
  | pos, h :: hs =>
    if 1 ≤ h.oldStart ∧ pos ≤ h.oldStart - 1 ∧ h.oldStart - 1 ≤ old.length then
      match applyBody old (h.oldStart - 1) h.body with
      | none => none
      | some br =>
        match applyHunks old br.2 hs with
        | none => none
        | some out => some ((old.drop pos).take (h.oldStart - 1 - pos) ++ br.1 ++ out)
    else none

/-- Apply a unified-diff text to a text: split both, check the two file
header lines, parse the hunks, apply them, and re-join.  The old text is
split with the same `null`/empty convention the diff engine itself uses. -/
def applyPatch (a : Text) (patch : Text) : Option Text :=
  match splitNl patch with
  | l1 :: l2 :: rest =>
    if l1.take 4 = strChars "--- " ∧ l2.take 4 = strChars "+++ " then
      match parseHunks rest with
      | none => none
      | some hs => (applyHunks (linesOfContent (some a)) 0 hs).map joinNl
    else none
  | _ => none

/-! ## Edit ledger data model (`src/core/shadow/shadowWorkspace.ts` and
`types.ts`)

Paths and contents are `List Char`; a TS `string | null` or optional field
is an `Option`.  The `pendingEdits: Map<string, PendingEdit>` is modelled
as an insertion-ordered list keyed by `path` (JavaScript `Map` semantics:
`set` on an existing key overwrites in place, `delete` removes the entry,
iteration follows insertion order). -/

/-- Workspace-relative path. -/
abbrev FilePath' := List Char

/-- File content. -/
abbrev Content := List Char

/-- `FileOperationType` (types.ts). -/
inductive FileOperationType where
  | create
  | modify
  | delete
  | rename
  | move
deriving Repr, DecidableEq, Inhabited

/-- `PendingEdit.status` (types.ts). -/
inductive EditStatus where
  | pending
  | accepted
  | rejected
deriving Repr, DecidableEq, Inhabited

/-- `PendingEdit` (types.ts).  The source id is the string
`edit-${counter}-${now}`; it is modelled by the pair `(counter, now)`,
which the template renders injectively. -/
structure PendingEdit where
  id : Nat × Nat
  path : FilePath'
  operationType : FileOperationType
  originalContent : Option Content
  newContent : Option Content
  originalPath : Option FilePath' := none
  createdAt : Nat
  description : Option Content := none
  chatId : Option FilePath' := none
  status : EditStatus
  diff : Option FileDiff := none
deriving Repr, DecidableEq, Inhabited

/-- `ShadowWorkspaceEvent` (types.ts). -/
inductive ShadowEvent where
  | editAdded (edit : PendingEdit)
  | editRemoved (editId : Nat × Nat) (path : FilePath')
  | editAccepted (editId : Nat × Nat) (path : FilePath')
  | editRejected (editId : Nat × Nat) (path : FilePath')
  | allAccepted
  | allRejected
  | cleared
deriving Repr, DecidableEq, Inhabited

/-- Mutable state of a `ShadowWorkspace` instance (the fields the staged
edits depend on; the snapshot cache plays no role in the claims below). -/
structure WorkspaceState where
  pendingEdits : List PendingEdit
  maxPendingEdits : Nat
  computeDiffsEagerly : Bool
  editCounter : Nat
  currentChatId : Option FilePath'
deriving Repr, DecidableEq, Inhabited

/-- Fresh ledger (constructor, shadowWorkspace.ts lines 47-54; default
`maxPendingEdits` is 100). -/
def initState (maxPendingEdits : Nat) (computeDiffsEagerly : Bool)
    (chatId : Option FilePath') : WorkspaceState :=
  { pendingEdits := [], maxPendingEdits := maxPendingEdits,
    computeDiffsEagerly := computeDiffsEagerly, editCounter := 0,
    currentChatId := chatId }

/-- JS `Map.get` by path. -/
def mapGet (m : List PendingEdit) (p : FilePath') : Option PendingEdit :=
  m.find? (fun e => e.path = p)

/-- JS `Map.set` keyed by path: overwrite in place or append. -/
def mapSet (m : List PendingEdit) (e : PendingEdit) : List PendingEdit :=
  if m.any (fun x => x.path = e.path) then
    m.map (fun x => if x.path = e.path then e else x)
  else m ++ [e]

/-- JS `Map.delete` keyed by path. -/
def mapDelete (m : List PendingEdit) (p : FilePath') : List PendingEdit :=
  m.filter (fun e => ¬e.path = p)

/-- `Array.from(values).sort((a, b) => a.createdAt - b.createdAt)[0]`
(shadowWorkspace.ts lines 729-730): the sort is stable, so this is the
first entry (in insertion order) with minimal `createdAt`. -/
def oldestEdit (m : List PendingEdit) : Option PendingEdit :=
  m.foldl
    (fun acc e =>
      match acc with
      | none => some e
      | some b => if e.createdAt < b.createdAt then some e else acc)
    none

/-- `ShadowWorkspace.addPendingEdit` (lines 725-745): evict the oldest
edit when the ledger is already at or above `maxPendingEdits`, emit
`edit-removed` for a replaced same-path edit, then store the new edit and
emit `edit-added`.  Returns the new state and the emitted events in
order. -/
def addPendingEdit (st : WorkspaceState) (edit : PendingEdit) :
    WorkspaceState × List ShadowEvent :=
  let evict :=
    if st.pendingEdits.length ≥ st.maxPendingEdits then
      match oldestEdit st.pendingEdits with
      | some oldest =>
        (mapDelete st.pendingEdits oldest.path,
          [ShadowEvent.editRemoved oldest.id oldest.path])
      | none => (st.pendingEdits, [])
    else (st.pendingEdits, [])
  let removedEvs :=
    match mapGet evict.1 edit.path with
    | some existing => [ShadowEvent.editRemoved existing.id existing.path]
    | none => []
  ({ st with pendingEdits := mapSet evict.1 edit },
    evict.2 ++ removedEvs ++ [ShadowEvent.editAdded edit])

/-- Parameters of `createPendingEdit` (lines 690-697). -/
structure EditParams where
  path : FilePath'
  operationType : FileOperationType
  originalContent : Option Content
  newContent : Option Content
  originalPath : Option FilePath' := none
  description : Option Content := none
deriving Repr, DecidableEq, Inhabited

/-- `ShadowWorkspace.createPendingEdit` (lines 690-723); `now` is the
`Date.now()` reading.  `chatId := this.currentChatId ?? undefined`
collapses TS `null` into `undefined`, so both map to `none`. -/
def createPendingEdit (st : WorkspaceState) (now : Nat) (params : EditParams) :
    WorkspaceState × PendingEdit :=
  let counter := st.editCounter + 1
  let edit : PendingEdit :=
    { id := (counter, now)
      path := params.path
      operationType := params.operationType
      originalContent := params.originalContent
      newContent := params.newContent
      originalPath := params.originalPath
      createdAt := now
      description := params.description
      chatId := st.currentChatId
      status := EditStatus.pending
      diff :=
        if st.computeDiffsEagerly then
          some (computeDiff params.path params.originalContent params.newContent)
        else none }
  ({ st with editCounter := counter }, edit)

/-! ## Track and propose operations (shadowWorkspace.ts lines 100-308)

Filesystem reads performed by the `propose*` operations are abstracted to
their observed outcome, passed in as the `diskContent` argument; everything
after the read is modelled faithfully. -/

/-- `ShadowWorkspace.trackCreate` (lines 100-117). -/
def trackCreate (st : WorkspaceState) (now : Nat) (relativePath : FilePath')
    (content : Content) (description : Option Content) :
    WorkspaceState × PendingEdit × List ShadowEvent :=
  let ce := createPendingEdit st now
    { path := relativePath, operationType := FileOperationType.create,
      originalContent := none, newContent := some content,
      description := some (description.getD (strChars "Created " ++ relativePath)) }
  let ae := addPendingEdit ce.1 ce.2
  (ae.1, ce.2, ae.2)

/-- `ShadowWorkspace.trackModify` (lines 123-143): with no original
content the operation is recorded as a `create`. -/
def trackModify (st : WorkspaceState) (now : Nat) (relativePath : FilePath')
    (originalContent : Option Content) (newContent : Content)
    (description : Option Content) :
    WorkspaceState × PendingEdit × List ShadowEvent :=
  let operationType :=
    if originalContent = none then FileOperationType.create
    else FileOperationType.modify
  let ce := createPendingEdit st now
    { path := relativePath, operationType := operationType,
      originalContent := originalContent, newContent := some newContent,
      description := some (description.getD (strChars "Modified " ++ relativePath)) }
  let ae := addPendingEdit ce.1 ce.2
  (ae.1, ce.2, ae.2)

/-- `ShadowWorkspace.trackDelete` (lines 149-165). -/
def trackDelete (st : WorkspaceState) (now : Nat) (relativePath : FilePath')
    (originalContent : Option Content) (description : Option Content) :
    WorkspaceState × PendingEdit × List ShadowEvent :=
  let ce := createPendingEdit st now
    { path := relativePath, operationType := FileOperationType.delete,
      originalContent := originalContent, newContent := none,
      description := some (description.getD (strChars "Deleted " ++ relativePath)) }
  let ae := addPendingEdit ce.1 ce.2
  (ae.1, ce.2, ae.2)

/-- `ShadowWorkspace.proposeCreate` (lines 174-202): `diskContent` is the
result of the attempted read — an existing file turns the operation into a
`modify`. -/
def proposeCreate (st : WorkspaceState) (now : Nat) (relativePath : FilePath')
    (content : Content) (diskContent : Option Content)
    (description : Option Content) :
    WorkspaceState × PendingEdit × List ShadowEvent :=
  let operationType :=
    if diskContent = none then FileOperationType.create
    else FileOperationType.modify
  let ce := createPendingEdit st now
    { path := relativePath, operationType := operationType,
      originalContent := diskContent, newContent := some content,
      description := some (description.getD (strChars "Create " ++ relativePath)) }
  let ae := addPendingEdit ce.1 ce.2
  (ae.1, ce.2, ae.2)

/-- `ShadowWorkspace.proposeModify` (lines 207-242): `knownContent` is the
snapshot-or-disk original. -/
def proposeModify (st : WorkspaceState) (now : Nat) (relativePath : FilePath')
    (newContent : Content) (knownContent : Option Content)
    (description : Option Content) :
    WorkspaceState × PendingEdit × List ShadowEvent :=
  let ce := createPendingEdit st now
    { path := relativePath,
      operationType :=
        if knownContent = none then FileOperationType.create
        else FileOperationType.modify,
      originalContent := knownContent, newContent := some newContent,
      description := some (description.getD (strChars "Modify " ++ relativePath)) }
  let ae := addPendingEdit ce.1 ce.2
  (ae.1, ce.2, ae.2)

/-- `ShadowWorkspace.proposeDelete` (lines 247-275) in its successful case
(a missing file throws before any state change). -/
def proposeDelete (st : WorkspaceState) (now : Nat) (relativePath : FilePath')
    (diskContent : Content) (description : Option Content) :
    WorkspaceState × PendingEdit × List ShadowEvent :=
  let ce := createPendingEdit st now
    { path := relativePath, operationType := FileOperationType.delete,
      originalContent := some diskContent, newContent := none,
      description := some (description.getD (strChars "Delete " ++ relativePath)) }
  let ae := addPendingEdit ce.1 ce.2
  (ae.1, ce.2, ae.2)

/-- `ShadowWorkspace.proposeRename` (lines 280-308) in its successful case. -/
def proposeRename (st : WorkspaceState) (now : Nat) (oldPath newPath : FilePath')
    (content : Content) (description : Option Content) :
    WorkspaceState × PendingEdit × List ShadowEvent :=
  let ce := createPendingEdit st now
    { path := newPath, operationType := FileOperationType.rename,
      originalContent := some content, newContent := some content,
      originalPath := some oldPath,
      description := some (description.getD (strChars "Rename " ++ oldPath ++ strChars " to " ++ newPath)) }
  let ae := addPendingEdit ce.1 ce.2
  (ae.1, ce.2, ae.2)

/-- One `propose*`/`track*` call, with the filesystem read outcomes it
depends on supplied as data. -/
inductive LedgerOp where
  | opTrackCreate (now : Nat) (path : FilePath') (content : Content)
  | opTrackModify (now : Nat) (path : FilePath') (original : Option Content) (newContent : Content)
  | opTrackDelete (now : Nat) (path : FilePath') (original : Option Content)
  | opProposeCreate (now : Nat) (path : FilePath') (content : Content) (diskContent : Option Content)
  | opProposeModify (now : Nat) (path : FilePath') (newContent : Content) (knownContent : Option Content)
  | opProposeDelete (now : Nat) (path : FilePath') (diskContent : Content)
  | opProposeRename (now : Nat) (oldPath newPath : FilePath') (content : Content)
deriving Repr, DecidableEq, Inhabited

/-- Apply one ledger operation to the state. -/
def applyOp (st : WorkspaceState) (op : LedgerOp) : WorkspaceState :=
  match op with
  | LedgerOp.opTrackCreate now p c => (trackCreate st now p c none).1
  | LedgerOp.opTrackModify now p o c => (trackModify st now p o c none).1
  | LedgerOp.opTrackDelete now p o => (trackDelete st now p o none).1
  | LedgerOp.opProposeCreate now p c d => (proposeCreate st now p c d none).1
  | LedgerOp.opProposeModify now p c k => (proposeModify st now p c k none).1
  | LedgerOp.opProposeDelete now p d => (proposeDelete st now p d none).1
  | LedgerOp.opProposeRename now o n c => (proposeRename st now o n c none).1

/-- Run a sequence of `propose*`/`track*` calls. -/
def runOps (st : WorkspaceState) (ops : List LedgerOp) : WorkspaceState :=
  ops.foldl applyOp st

/-! ## Query operations (shadowWorkspace.ts lines 318-354) -/

/-- A provided `chatId` argument of `getPendingEdits`: TS `string | null`. -/
inductive ChatFilter where
  | isNull
  | chat (s : FilePath')
deriving Repr, DecidableEq, Inhabited

/-- TS strict equality `e.chatId === chatId` between `string | undefined`
(the stored field, `none` = `undefined`) and `string | null` (the
argument): true exactly when both are the same string — `undefined === null`
is false. -/
def chatStrictEq (editChat : Option FilePath') (q : ChatFilter) : Bool :=
  match editChat, q with
  | some s, ChatFilter.chat t => s = t
  | _, _ => false

/-- `ShadowWorkspace.getPendingEdits(chatId?)` (lines 318-326): `none`
models an omitted argument. -/
def getPendingEdits (st : WorkspaceState) (chatId : Option ChatFilter) :
    List PendingEdit :=
  match chatId with
  | none => st.pendingEdits
  | some q => st.pendingEdits.filter (fun e => chatStrictEq e.chatId q)

/-! ## Commit machinery (shadowWorkspace.ts lines 455-475 and 754-827)

`applyEdit` performs filesystem writes; its outcome is abstracted by an
oracle `fs : PendingEdit → Option Content` returning `none` on success and
`some errorMessage` on failure (covering both thrown validation errors and
I/O failures). -/

/-- `CommitResult` (types.ts). -/
structure CommitResult where
  success : Bool
  committedPaths : List FilePath'
  failedPaths : List (FilePath' × Content)
  summary : Content
deriving Repr, DecidableEq, Inhabited

/-- `formatCommitSummary` (lines 813-827). -/
def formatCommitSummary (committed : List FilePath')
    (failed : List (FilePath' × Content)) : Content :=
  let parts : List Content :=
    (if committed.length > 0 then
      [strChars "✅ " ++ repNat committed.length ++ strChars " file(s) committed"]
     else []) ++
    (if failed.length > 0 then
      [strChars "❌ " ++ repNat failed.length ++ strChars " file(s) failed"]
     else [])
  if parts = [] then strChars "No changes"
  else List.intercalate (strChars ", ") parts

/-- Accumulator of the loop inside `commitEdits` (lines 758-769). -/
structure CommitAcc where
  pendingEdits : List PendingEdit
  committedPaths : List FilePath'
  failedPaths : List (FilePath' × Content)
  events : List ShadowEvent
deriving Repr, DecidableEq, Inhabited

/-- One iteration of the `commitEdits` loop: on success the edit is
removed from the ledger and `edit-accepted` fires; on failure the path and
error are recorded and the ledger entry is untouched. -/
def commitStep (fs : PendingEdit → Option Content) (acc : CommitAcc)
    (edit : PendingEdit) : CommitAcc :=
  match fs edit with
  | none =>
    { acc with
      pendingEdits := mapDelete acc.pendingEdits edit.path
      committedPaths := acc.committedPaths ++ [edit.path]
      events := acc.events ++ [ShadowEvent.editAccepted edit.id edit.path] }
  | some err =>
    { acc with failedPaths := acc.failedPaths ++ [(edit.path, err)] }

/-- `ShadowWorkspace.commitEdits` (lines 754-782). -/
def commitEdits (fs : PendingEdit → Option Content) (st : WorkspaceState)
    (edits : List PendingEdit) :
    WorkspaceState × CommitResult × List ShadowEvent :=
  let acc := edits.foldl (commitStep fs)
    { pendingEdits := st.pendingEdits, committedPaths := [],
      failedPaths := [], events := [] }
  let allAccepted := acc.failedPaths.length = 0 ∧ edits.length > 0
  let events :=
    if allAccepted ∧
        edits.length = acc.pendingEdits.length + acc.committedPaths.length then
      acc.events ++ [ShadowEvent.allAccepted]
    else acc.events
  ({ st with pendingEdits := acc.pendingEdits },
    { success := acc.failedPaths.length = 0,
      committedPaths := acc.committedPaths,
      failedPaths := acc.failedPaths,
      summary := formatCommitSummary acc.committedPaths acc.failedPaths },
    events)

/-- `findEditById` (lines 747-752). -/
def findEditById (st : WorkspaceState) (editId : Nat × Nat) : Option PendingEdit :=
  st.pendingEdits.find? (fun e => e.id = editId)

/-- `ShadowWorkspace.acceptAll` (lines 472-475). -/
def acceptAll (fs : PendingEdit → Option Content) (st : WorkspaceState) :
    WorkspaceState × CommitResult × List ShadowEvent :=
  commitEdits fs st st.pendingEdits

/-- `ShadowWorkspace.acceptEdit` (lines 455-467). -/
def acceptEdit (fs : PendingEdit → Option Content) (st : WorkspaceState)
    (editId : Nat × Nat) : WorkspaceState × CommitResult × List ShadowEvent :=
  match findEditById st editId with
  | none =>
    (st,
      { success := false, committedPaths := [],
        failedPaths := [(strChars "unknown", strChars "Edit not found")],
        summary := strChars "Edit not found" },
      [])
  | some edit => commitEdits fs st [edit]

/-! ## Undo model (`ShadowWorkspace.undoEdit`, lines 528-573) -/

/-- The filesystem action `undoEdit` performs for an edit. -/
inductive UndoAction where
  | unlinkFile (path : FilePath')
  | writeFile (path : FilePath') (content : Content)
  | renameFile (fromPath toPath : FilePath')
  | noAction
deriving Repr, DecidableEq, Inhabited

/-- `undoEdit` dispatch on `operationType` (lines 531-572): a `create` is
undone by deleting the file; a `modify` restores the original content (or
deletes when there was none); a `delete` recreates the original content;
`rename`/`move` rename back. -/
def undoEdit (edit : PendingEdit) : UndoAction :=
  match edit.operationType with
  | FileOperationType.create => UndoAction.unlinkFile edit.path
  | FileOperationType.modify =>
    match edit.originalContent with
    | some c => UndoAction.writeFile edit.path c
    | none => UndoAction.unlinkFile edit.path
  | FileOperationType.delete =>
    match edit.originalContent with
    | some c => UndoAction.writeFile edit.path c
    | none => UndoAction.noAction
  | FileOperationType.rename =>
    match edit.originalPath with
    | some op => UndoAction.renameFile edit.path op
    | none => UndoAction.noAction
  | FileOperationType.move =>
    match edit.originalPath with
    | some op => UndoAction.renameFile edit.path op
    | none => UndoAction.noAction

/-! ## Ledger invariant machinery -/

/-- Keys (paths) of the ledger map are pairwise distinct. -/
def PathsNodup (m : List PendingEdit) : Prop :=
  (m.map (fun e => e.path)).Nodup

theorem mapSet_map_path_of_any (m : List PendingEdit) (e : PendingEdit)
    (h : m.any (fun x => x.path = e.path)) :
    (mapSet m e).map (fun x => x.path) = m.map (fun x => x.path) := by
  unfold mapSet
  rw [if_pos h]
  rw [List.map_map]
  apply List.map_congr_left
  intro x _
  by_cases hx : x.path = e.path <;> simp [hx]

theorem mapSet_nodup (m : List PendingEdit) (e : PendingEdit)
    (h : PathsNodup m) : PathsNodup (mapSet m e) := by
  unfold PathsNodup
  by_cases hany : m.any (fun x => x.path = e.path)
  · rw [mapSet_map_path_of_any m e hany]
    exact h
  · unfold mapSet
    rw [if_neg hany]
    rw [List.map_append]
    simp only [List.map_cons, List.map_nil]
    rw [List.nodup_append]
    refine ⟨h, List.nodup_singleton _, ?_⟩
    intro a ha
    simp only [List.mem_singleton]
    intro hb
    subst hb
    rcases List.mem_map.mp ha with ⟨x, hx, hxe⟩
    exact hany (List.any_eq_true.mpr ⟨x, hx, by simp [hxe]⟩)

theorem mapDelete_nodup (m : List PendingEdit) (p : FilePath')
    (h : PathsNodup m) : PathsNodup (mapDelete m p) := by
  unfold PathsNodup at h ⊢
  unfold mapDelete
  exact List.Sublist.nodup
    (List.Sublist.map (fun e => e.path) (List.filter_sublist m)) h

theorem addPendingEdit_nodup (st : WorkspaceState) (e : PendingEdit)
    (h : PathsNodup st.pendingEdits) :
    PathsNodup (addPendingEdit st e).1.pendingEdits := by
  unfold addPendingEdit
  simp only []
  apply mapSet_nodup
  split
  · split
    · exact mapDelete_nodup _ _ h
    · exact h
  · exact h

theorem applyOp_nodup (st : WorkspaceState) (op : LedgerOp)
    (h : PathsNodup st.pendingEdits) : PathsNodup (applyOp st op).pendingEdits := by
  cases op <;>
    simp only [applyOp, trackCreate, trackModify, trackDelete, proposeCreate,
      proposeModify, proposeDelete, proposeRename] <;>
    exact addPendingEdit_nodup _ _ h

theorem runOps_nodup (st : WorkspaceState) (ops : List LedgerOp)
    (h : PathsNodup st.pendingEdits) : PathsNodup (runOps st ops).pendingEdits := by
  induction ops generalizing st with
  | nil => exact h
  | cons op rest ih => exact ih (applyOp st op) (applyOp_nodup st op h)

theorem nodup_filter_path_le_one (m : List PendingEdit) (p : FilePath')
    (h : PathsNodup m) : (m.filter (fun e => e.path = p)).length ≤ 1 := by
  induction m with
  | nil => simp
  | cons e tl ih =>
    unfold PathsNodup at h
    simp only [List.map_cons, List.nodup_cons] at h
    by_cases hp : e.path = p
    · have : tl.filter (fun x => x.path = p) = [] := by
        apply List.filter_eq_nil_iff.mpr
        intro x hx
        simp only [decide_eq_true_eq]
        intro hxp
        exact h.1 (List.mem_map.mpr ⟨x, hx, by rw [hxp, hp]⟩)
      simp [hp, this]
    · simpa [hp] using ih h.2

/-! ## Claim C2: at most one pending edit per path -/

/-- C2: after any sequence of `propose*`/`track*` calls starting from a
fresh ledger, the pending-edit map holds at most one entry per path. -/
theorem pendingEdits_at_most_one_per_path
    (maxP : Nat) (eager : Bool) (chat : Option FilePath')
    (ops : List LedgerOp) (p : FilePath') :
    (((runOps (initState maxP eager chat) ops).pendingEdits.filter
      (fun e => e.path = p)).length) ≤ 1 := by
  apply nodup_filter_path_le_one
  apply runOps_nodup
  simp [initState, PathsNodup]

/-! ## Claim C10: `trackModify` with absent original content -/

theorem mem_mapSet_self (m : List PendingEdit) (e : PendingEdit) :
    e ∈ mapSet m e := by
  unfold mapSet
  split
  · rename_i hany
    rcases List.any_eq_true.mp hany with ⟨x, hx, hxe⟩
    simp only [decide_eq_true_eq] at hxe
    exact List.mem_map.mpr ⟨x, hx, by simp [hxe]⟩
  · simp

theorem mem_addPendingEdit_self (st : WorkspaceState) (e : PendingEdit) :
    e ∈ (addPendingEdit st e).1.pendingEdits := by
  unfold addPendingEdit
  exact mem_mapSet_self _ _

/-- C10: `trackModify` called with absent (`null`) original content stores
the edit with operation type `create` rather than `modify`, and undoing
such an edit deletes the file. -/
theorem trackModify_absent_original_is_create
    (st : WorkspaceState) (now : Nat) (relativePath : FilePath')
    (newContent : Content) (description : Option Content) :
    ((trackModify st now relativePath none newContent description).2.1.operationType
        = FileOperationType.create) ∧
    (trackModify st now relativePath none newContent description).2.1 ∈
      (trackModify st now relativePath none newContent description).1.pendingEdits ∧
    undoEdit (trackModify st now relativePath none newContent description).2.1
        = UndoAction.unlinkFile relativePath := by
  refine ⟨rfl, ?_, rfl⟩
  unfold trackModify
  exact mem_addPendingEdit_self _ _

/-! ## Claim C4: `getPendingEdits` chat filtering -/

/-- A ledger holding exactly one edit created while no chat was active
(`currentChatId = null`, so the stored `chatId` is `undefined`). -/
def demoNoChatState : WorkspaceState :=
  (trackCreate (initState 100 false none) 1 (strChars "a.txt") (strChars "hi") none).1

/-- C4 (failing input): the ledger holds one edit with no chat
association, yet `getPendingEdits(null)` returns the empty list — the
strict comparison `e.chatId === null` never matches the stored
`undefined` — contradicting both the claim and the source comment
"null matches edits with no chatId". -/
theorem getPendingEdits_null_misses_unassociated_edit :
    getPendingEdits demoNoChatState (some ChatFilter.isNull) = [] ∧
    demoNoChatState.pendingEdits.length = 1 ∧
    (∀ e ∈ demoNoChatState.pendingEdits, e.chatId = none) := by
  refine ⟨by decide, by decide, by decide⟩

/-! ## Claim C9: `acceptAll` on an empty ledger -/

/-- C9: `acceptAll()` with no pending edits returns success with empty
path lists and emits no event (in particular no `all-accepted`). -/
theorem acceptAll_empty_ledger (fs : PendingEdit → Option Content)
    (st : WorkspaceState) (h : st.pendingEdits = []) :
    (acceptAll fs st).2.1.success = true ∧
    (acceptAll fs st).2.1.committedPaths = [] ∧
    (acceptAll fs st).2.1.failedPaths = [] ∧
    (acceptAll fs st).2.2 = [] := by
  unfold acceptAll commitEdits
  rw [h]
  simp

/-- Witness for C9 at a concrete empty ledger. -/
theorem acceptAll_empty_ledger_witness :
    (initState 2 false none).pendingEdits = [] ∧
    ((acceptAll (fun _ => none) (initState 2 false none)).2.1.success = true ∧
      (acceptAll (fun _ => none) (initState 2 false none)).2.1.committedPaths = [] ∧
      (acceptAll (fun _ => none) (initState 2 false none)).2.1.failedPaths = [] ∧
      (acceptAll (fun _ => none) (initState 2 false none)).2.2 = []) :=
  ⟨rfl, acceptAll_empty_ledger (fun _ => none) (initState 2 false none) rfl⟩

/-! ## Claim C7: binary inputs short-circuit -/

theorem detectBinary_true_of_cond (c : Text)
    (hbin : (∃ ch ∈ c.take 8000, ch.toNat = 0) ∨
      10 * ((c.take 8000).filter isControlChar).length > (c.take 8000).length) :
    detectBinary (some c) = true := by
  have hne : c ≠ [] := by
    intro hc
    subst hc
    simp at hbin
  simp only [detectBinary]
  rw [if_neg hne]
  by_cases hnul : (c.take 8000).any (fun ch => ch.toNat == 0)
  · simp [hnul]
  · rw [if_neg (by simpa using hnul)]
    rcases hbin with ⟨ch, hch, hch0⟩ | hratio
    · exact absurd (List.any_eq_true.mpr ⟨ch, hch, by simp [hch0]⟩) hnul
    · simpa using hratio

/-- C7: whenever the present original or modified content contains a NUL
in its first 8000 characters, or that sample is more than 10% control
characters (code point below 32, excluding tab/LF/CR), `computeDiff`
reports a binary diff: `isBinary`, no hunks, zero counts. -/
theorem computeDiff_binary_shortcircuit (p : Text) (orig mod : Option Text)
    (c : Text) (hc : orig = some c ∨ mod = some c)
    (hbin : (∃ ch ∈ c.take 8000, ch.toNat = 0) ∨
      10 * ((c.take 8000).filter isControlChar).length > (c.take 8000).length) :
    (computeDiff p orig mod).isBinary = true ∧
    (computeDiff p orig mod).hunks = [] ∧
    (computeDiff p orig mod).additions = 0 ∧
    (computeDiff p orig mod).deletions = 0 := by
  have hdet : (detectBinary orig || detectBinary mod) = true := by
    rcases hc with hc | hc <;> rw [hc, detectBinary_true_of_cond c hbin]
    · rw [Bool.true_or]
    · rw [Bool.or_true]
  simp only [computeDiff, hdet]
  simp

/-- Witness for C7: a NUL byte in the original content. -/
theorem computeDiff_binary_shortcircuit_witness :
    ((some [Char.ofNat 97, Char.ofNat 0] = some [Char.ofNat 97, Char.ofNat 0] ∨
        (some [Char.ofNat 98] : Option Text) = some [Char.ofNat 97, Char.ofNat 0]) ∧
      ((∃ ch ∈ ([Char.ofNat 97, Char.ofNat 0] : Text).take 8000, ch.toNat = 0) ∨
        10 * ((([Char.ofNat 97, Char.ofNat 0] : Text).take 8000).filter isControlChar).length >
          (([Char.ofNat 97, Char.ofNat 0] : Text).take 8000).length)) ∧
    ((computeDiff [] (some [Char.ofNat 97, Char.ofNat 0]) (some [Char.ofNat 98])).isBinary = true ∧
      (computeDiff [] (some [Char.ofNat 97, Char.ofNat 0]) (some [Char.ofNat 98])).hunks = [] ∧
      (computeDiff [] (some [Char.ofNat 97, Char.ofNat 0]) (some [Char.ofNat 98])).additions = 0 ∧
      (computeDiff [] (some [Char.ofNat 97, Char.ofNat 0]) (some [Char.ofNat 98])).deletions = 0) :=
  ⟨⟨Or.inl rfl, by decide⟩,
    computeDiff_binary_shortcircuit [] (some [Char.ofNat 97, Char.ofNat 0])
      (some [Char.ofNat 98]) [Char.ofNat 97, Char.ofNat 0] (Or.inl rfl) (by decide)⟩

/-! ## Claim C6: LCS backtracking tie direction -/

/-- Modelled from the spec: the backtracking procedure exactly as the claim
describes it — diagonal step on equal lines, otherwise toward the larger
neighbour, "ties broken by stepping in the old/row direction" (decrement
the old index). -/
def lcsBacktrackRowTie (old new : List Line) : Nat → Nat → List (Nat × Nat)
  | 0, _ => []
  | _ + 1, 0 => []
  | i + 1, j + 1 =>
    if old[i]? = new[j]? then lcsBacktrackRowTie old new i j ++ [(i, j)]
    else if lcsDp old new i (j + 1) ≥ lcsDp old new (i + 1) j then
      lcsBacktrackRowTie old new i (j + 1)
    else
      lcsBacktrackRowTie old new (i + 1) j
termination_by i j => i + j

/-- C6 counterexample: on old lines `["a", "b"]` and new lines
`["b", "a"]` the two neighbour cells tie, the source steps in the
new/column direction and matches `"b"`, while the claimed row-direction
tie-breaking would match `"a"`; the computed alignment differs from the
claimed procedure. -/
theorem computeLCSDP_ne_rowTie_backtrack :
    computeLCSDP [[Char.ofNat 97], [Char.ofNat 98]] [[Char.ofNat 98], [Char.ofNat 97]] ≠
      lcsBacktrackRowTie [[Char.ofNat 97], [Char.ofNat 98]] [[Char.ofNat 98], [Char.ofNat 97]] 2 2 := by
  simp [computeLCSDP, lcsBacktrack, lcsBacktrackRowTie, lcsDp]

/-- The backtracking procedure with the tie broken toward the new/column
direction: step toward the (weakly) larger column neighbour, otherwise
toward the row neighbour. -/
def lcsBacktrackColTie (old new : List Line) : Nat → Nat → List (Nat × Nat)
  | 0, _ => []
  | _ + 1, 0 => []
  | i + 1, j + 1 =>
    if old[i]? = new[j]? then lcsBacktrackColTie old new i j ++ [(i, j)]
    else if lcsDp old new (i + 1) j ≥ lcsDp old new i (j + 1) then
      lcsBacktrackColTie old new (i + 1) j
    else
      lcsBacktrackColTie old new i (j + 1)
termination_by i j => i + j

theorem lcsBacktrack_eq_colTie (old new : List Line) (i j : Nat) :
    lcsBacktrack old new i j = lcsBacktrackColTie old new i j := by
  induction i, j using lcsBacktrack.induct old new with
  | case1 j => rw [lcsBacktrack, lcsBacktrackColTie]
  | case2 i => rw [lcsBacktrack, lcsBacktrackColTie]
  | case3 i j heq ih =>
    rw [lcsBacktrack, lcsBacktrackColTie, if_pos heq, if_pos heq, ih]
  | case4 i j heq hgt ih =>
    have hnot : ¬lcsDp old new (i + 1) j ≥ lcsDp old new i (j + 1) := by omega
    rw [lcsBacktrack, lcsBacktrackColTie, if_neg heq, if_neg heq, if_pos hgt,
      if_neg hnot]
    exact ih
  | case5 i j heq hgt ih =>
    have hyes : lcsDp old new (i + 1) j ≥ lcsDp old new i (j + 1) := by omega
    rw [lcsBacktrack, lcsBacktrackColTie, if_neg heq, if_neg heq, if_neg hgt,
      if_pos hyes]
    exact ih

/-- C6 (amended): in the dynamic-programming mode the alignment is the LCS
backtracking from `(m, n)` with diagonal steps on equal lines and ties
between neighbour cells broken by stepping in the new/column direction. -/
theorem computeLCSDP_eq_colTie_backtrack (old new : List Line) :
    computeLCSDP old new = lcsBacktrackColTie old new old.length new.length := by
  unfold computeLCSDP
  exact lcsBacktrack_eq_colTie old new old.length new.length

/-! ## Claim C3: insertion and eviction policy of `addPendingEdit` -/

theorem mem_mapSet_elim (m : List PendingEdit) (e x : PendingEdit)
    (hx : x ∈ mapSet m e) : x ∈ m ∨ x = e := by
  unfold mapSet at hx
  split at hx
  · rcases List.mem_map.mp hx with ⟨y, hy, hyx⟩
    by_cases hp : y.path = e.path
    · right
      rw [← hyx]
      simp [hp]
    · left
      rw [← hyx]
      simpa [hp] using hy
  · rcases List.mem_append.mp hx with h | h
    · exact Or.inl h
    · exact Or.inr (by simpa using h)

theorem mem_mapSet_same_path (m : List PendingEdit) (e x : PendingEdit)
    (hx : x ∈ mapSet m e) (hp : x.path = e.path) : x = e := by
  unfold mapSet at hx
  split at hx
  · rcases List.mem_map.mp hx with ⟨y, hy, hyx⟩
    by_cases hyp : y.path = e.path
    · rw [← hyx]
      simp [hyp]
    · rw [← hyx] at hp
      simp [hyp] at hp
  · rename_i hany
    rcases List.mem_append.mp hx with h | h
    · exact absurd (List.any_eq_true.mpr ⟨x, h, by simp [hp]⟩) hany
    · simpa using h

theorem mem_mapSet_of_mem (m : List PendingEdit) (e x : PendingEdit)
    (hx : x ∈ m) (hp : x.path ≠ e.path) : x ∈ mapSet m e := by
  unfold mapSet
  split
  · exact List.mem_map.mpr ⟨x, hx, by simp [hp]⟩
  · exact List.mem_append.mpr (Or.inl hx)

theorem mem_mapDelete_ne (m : List PendingEdit) (p : FilePath') (x : PendingEdit)
    (hx : x ∈ mapDelete m p) : x.path ≠ p := by
  unfold mapDelete at hx
  have := List.of_mem_filter hx
  simpa using this

/-- C3 counterexample: with `maxPendingEdits = 2` and staged edits for
paths `a` then `b`, re-proposing an edit for `b` — an insert that merely
replaces an existing path and would not exceed the limit — still evicts
the globally oldest edit `a`; the ledger ends with only `b`, where the
claim predicts `{a, b}`. -/
theorem addPendingEdit_evicts_even_on_replacement :
    ((runOps (initState 2 false none)
        [LedgerOp.opTrackCreate 1 (strChars "a") (strChars "x"),
         LedgerOp.opTrackCreate 2 (strChars "b") (strChars "y"),
         LedgerOp.opTrackCreate 3 (strChars "b") (strChars "z")]).pendingEdits.map
      (fun e => e.path)) = [strChars "b"] := by
  decide

/-- C3 (amended): inserting a new pending edit (a) replaces any existing
edit for the same path, (b) evicts the globally oldest edit by `createdAt`
whenever the ledger already holds at least `maxPendingEdits` edits at
insert time — even when the insert replaces an existing path and would not
increase the count — with the size eviction happening before the same-path
replacement, and stores the new edit, emitting `edit-added` last; below
capacity nothing else is evicted.  With `maxPendingEdits = 2`, proposing
edits for `a`, `b`, `c` in that order leaves exactly `{b, c}` staged. -/
theorem addPendingEdit_eviction_policy :
    (∀ (st : WorkspaceState) (e : PendingEdit),
      (e ∈ (addPendingEdit st e).1.pendingEdits) ∧
      (∀ x ∈ (addPendingEdit st e).1.pendingEdits, x.path = e.path → x = e) ∧
      (st.pendingEdits.length < st.maxPendingEdits →
        ∀ x ∈ st.pendingEdits, x.path ≠ e.path →
          x ∈ (addPendingEdit st e).1.pendingEdits) ∧
      (st.pendingEdits.length ≥ st.maxPendingEdits →
        ∀ o, oldestEdit st.pendingEdits = some o → o.path ≠ e.path →
          (∀ x ∈ (addPendingEdit st e).1.pendingEdits, x.path ≠ o.path) ∧
          ShadowEvent.editRemoved o.id o.path ∈ (addPendingEdit st e).2) ∧
      ((addPendingEdit st e).2.getLast? = some (ShadowEvent.editAdded e))) ∧
    ((runOps (initState 2 false none)
        [LedgerOp.opTrackCreate 1 (strChars "a") (strChars "x"),
         LedgerOp.opTrackCreate 2 (strChars "b") (strChars "y"),
         LedgerOp.opTrackCreate 3 (strChars "c") (strChars "z")]).pendingEdits.map
      (fun e => e.path)) = [strChars "b", strChars "c"] := by
  constructor
  · intro st e
    refine ⟨mem_addPendingEdit_self st e, ?_, ?_, ?_, ?_⟩
    · intro x hx hp
      exact mem_mapSet_same_path _ _ _ hx hp
    · intro hlt x hx hp
      unfold addPendingEdit
      simp only []
      rw [if_neg (by omega)]
      exact mem_mapSet_of_mem _ _ _ hx hp
    · intro hge o ho hop
      unfold addPendingEdit
      simp only []
      rw [if_pos hge, ho]
      constructor
      · intro x hx
        rcases mem_mapSet_elim _ _ _ hx with h | h
        · exact mem_mapDelete_ne _ _ _ h
        · rw [h]
          exact fun hc => hop hc.symm
      · simp
    · unfold addPendingEdit
      simp only []
      rw [List.getLast?_concat]
  · decide

/-- Concrete two-edit ledger at capacity (paths `a`, `b`, max 2). -/
def demoFullState : WorkspaceState :=
  runOps (initState 2 false none)
    [LedgerOp.opTrackCreate 1 (strChars "a") (strChars "x"),
     LedgerOp.opTrackCreate 2 (strChars "b") (strChars "y")]

/-- A fresh edit for path `c`. -/
def demoEditC : PendingEdit :=
  { id := (3, 3), path := strChars "c",
    operationType := FileOperationType.create, originalContent := none,
    newContent := some (strChars "z"), createdAt := 3,
    status := EditStatus.pending }

/-- Witness for the amended C3 policy at a concrete at-capacity ledger:
the oldest edit `a` is evicted (with an `edit-removed` event) when `c` is
inserted. -/
theorem addPendingEdit_eviction_policy_witness :
    demoFullState.pendingEdits.length ≥ demoFullState.maxPendingEdits ∧
    (∀ x ∈ (addPendingEdit demoFullState demoEditC).1.pendingEdits,
      x.path ≠ strChars "a") ∧
    ShadowEvent.editRemoved (1, 1) (strChars "a") ∈
      (addPendingEdit demoFullState demoEditC).2 := by
  have h := (addPendingEdit_eviction_policy.1 demoFullState demoEditC).2.2.2.1
    (by decide)
    ((runOps (initState 2 false none)
      [LedgerOp.opTrackCreate 1 (strChars "a") (strChars "x")]).pendingEdits.getD 0 default)
    (by decide) (by decide)
  have hpa : ((runOps (initState 2 false none)
      [LedgerOp.opTrackCreate 1 (strChars "a") (strChars "x")]).pendingEdits.getD 0
        default).path = strChars "a" := by decide
  have hid : ((runOps (initState 2 false none)
      [LedgerOp.opTrackCreate 1 (strChars "a") (strChars "x")]).pendingEdits.getD 0
        default).id = (1, 1) := by decide
  refine ⟨by decide, ?_, ?_⟩
  · intro x hx
    exact hpa ▸ h.1 x hx
  · have := h.2
    rw [hpa, hid] at this
    exact this

/-! ## Claim C5: best-effort batch commit -/

theorem commit_foldl_committed (fs : PendingEdit → Option Content)
    (edits : List PendingEdit) (acc : CommitAcc) :
    (edits.foldl (commitStep fs) acc).committedPaths =
      acc.committedPaths ++
        (edits.filter (fun e => (fs e).isNone)).map (fun e => e.path) := by
  induction edits generalizing acc with
  | nil => simp
  | cons e tl ih =>
    simp only [List.foldl_cons, ih]
    rcases hfs : fs e with _ | err <;>
      simp [commitStep, hfs]

theorem commit_foldl_failed (fs : PendingEdit → Option Content)
    (edits : List PendingEdit) (acc : CommitAcc) :
    (edits.foldl (commitStep fs) acc).failedPaths =
      acc.failedPaths ++
        (edits.filter (fun e => (fs e).isSome)).map
          (fun e => (e.path, (fs e).getD [])) := by
  induction edits generalizing acc with
  | nil => simp
  | cons e tl ih =>
    simp only [List.foldl_cons, ih]
    rcases hfs : fs e with _ | err <;>
      simp [commitStep, hfs]

theorem commit_foldl_pending (fs : PendingEdit → Option Content)
    (edits : List PendingEdit) (acc : CommitAcc) (x : PendingEdit)
    (hx : x ∈ acc.pendingEdits)
    (hkeep : ∀ e ∈ edits, fs e = none → x.path ≠ e.path) :
    x ∈ (edits.foldl (commitStep fs) acc).pendingEdits := by
  induction edits generalizing acc with
  | nil => exact hx
  | cons e tl ih =>
    simp only [List.foldl_cons]
    apply ih
    · rcases hfs : fs e with _ | err
      · simp only [commitStep, hfs]
        unfold mapDelete
        exact List.mem_filter.mpr ⟨hx, by
          simpa using hkeep e (by simp) hfs⟩
      · simpa [commitStep, hfs] using hx
    · intro d hd hdnone
      exact hkeep d (by simp [hd]) hdnone

theorem filter_isNone_isSome_length (fs : PendingEdit → Option Content)
    (l : List PendingEdit) :
    (l.filter (fun e => (fs e).isNone)).length +
      (l.filter (fun e => (fs e).isSome)).length = l.length := by
  induction l with
  | nil => simp
  | cons e tl ih =>
    rcases hfs : fs e with _ | err <;> simp [hfs] <;> omega

/-- C5: commit is best-effort across the batch — every targeted edit is
attempted and lands in exactly one of `committedPaths`/`failedPaths`; an
edit whose apply fails stays in the ledger with status `pending` and its
path and error recorded; `success` is true iff every targeted edit
committed. -/
theorem commitEdits_best_effort (fs : PendingEdit → Option Content)
    (st : WorkspaceState) (edits : List PendingEdit)
    (hnodup : (edits.map (fun e => e.path)).Nodup)
    (hmem : ∀ e ∈ edits, e ∈ st.pendingEdits)
    (hpend : ∀ e ∈ edits, e.status = EditStatus.pending) :
    (∀ e ∈ edits, fs e = none →
      e.path ∈ (commitEdits fs st edits).2.1.committedPaths) ∧
    (∀ e ∈ edits, ∀ err, fs e = some err →
      (e.path, err) ∈ (commitEdits fs st edits).2.1.failedPaths ∧
      e ∈ (commitEdits fs st edits).1.pendingEdits ∧
      e.status = EditStatus.pending) ∧
    ((commitEdits fs st edits).2.1.committedPaths.length +
      (commitEdits fs st edits).2.1.failedPaths.length = edits.length) ∧
    ((commitEdits fs st edits).2.1.success = true ↔ ∀ e ∈ edits, fs e = none) := by
  have hinj : ∀ x ∈ edits, ∀ y ∈ edits, x.path = y.path → x = y := by
    intro x hx y hy hxy
    exact List.inj_on_of_nodup_map hnodup hx hy hxy
  refine ⟨?_, ?_, ?_, ?_⟩
  · intro e he hfs
    simp only [commitEdits, commit_foldl_committed]
    simp only [List.nil_append]
    exact List.mem_map.mpr ⟨e, List.mem_filter.mpr ⟨he, by simp [hfs]⟩, rfl⟩
  · intro e he err hfs
    refine ⟨?_, ?_, hpend e he⟩
    · simp only [commitEdits, commit_foldl_failed]
      simp only [List.nil_append]
      exact List.mem_map.mpr ⟨e, List.mem_filter.mpr ⟨he, by simp [hfs]⟩, by simp [hfs]⟩
    · simp only [commitEdits]
      apply commit_foldl_pending
      · exact hmem e he
      · intro d hd hdnone hpath
        have : e = d := hinj e he d hd hpath
        rw [this] at hfs
        rw [hdnone] at hfs
        exact Option.noConfusion hfs
  · simp only [commitEdits, commit_foldl_committed, commit_foldl_failed]
    simp only [List.nil_append, List.length_map]
    exact filter_isNone_isSome_length fs edits
  · simp only [commitEdits, commit_foldl_failed]
    simp only [List.nil_append]
    constructor
    · intro hs e he
      have hlen : ((edits.filter (fun e => (fs e).isSome)).map
          (fun e => (e.path, (fs e).getD []))).length = 0 := by
        simpa using hs
      have hnil : edits.filter (fun e => (fs e).isSome) = [] := by
        rw [List.length_map] at hlen
        exact List.length_eq_zero.mp hlen
      have := List.filter_eq_nil_iff.mp hnil e he
      rcases hfs : fs e with _ | err
      · rfl
      · rw [hfs] at this
        simp at this
    · intro hall
      have hnil : edits.filter (fun e => (fs e).isSome) = [] := by
        apply List.filter_eq_nil_iff.mpr
        intro e he
        simp [hall e he]
      simp [hnil]

/-- Apply oracle that fails exactly on path `b`. -/
def demoFsFailB (e : PendingEdit) : Option Content :=
  if e.path = strChars "b" then some (strChars "boom") else none

/-- Two-edit ledger (paths `a`, `b`) with a generous capacity. -/
def demoTwoState : WorkspaceState :=
  runOps (initState 100 false none)
    [LedgerOp.opTrackCreate 1 (strChars "a") (strChars "x"),
     LedgerOp.opTrackCreate 2 (strChars "b") (strChars "y")]

/-- Witness for C5: committing both edits with an oracle that fails on
`b` commits `a`, records `b` with its error, and keeps `b` pending. -/
theorem commitEdits_best_effort_witness :
    (demoTwoState.pendingEdits.map (fun e => e.path)).Nodup ∧
    strChars "a" ∈
      (commitEdits demoFsFailB demoTwoState demoTwoState.pendingEdits).2.1.committedPaths ∧
    (strChars "b", strChars "boom") ∈
      (commitEdits demoFsFailB demoTwoState demoTwoState.pendingEdits).2.1.failedPaths ∧
    demoTwoState.pendingEdits.getD 1 default ∈
      (commitEdits demoFsFailB demoTwoState demoTwoState.pendingEdits).1.pendingEdits := by
  have h := commitEdits_best_effort demoFsFailB demoTwoState demoTwoState.pendingEdits
    (by decide) (fun e he => he) (by decide)
  have hpa : (demoTwoState.pendingEdits.getD 0 default).path = strChars "a" := by decide
  have hpb : (demoTwoState.pendingEdits.getD 1 default).path = strChars "b" := by decide
  refine ⟨by decide, ?_, ?_, ?_⟩
  · have := h.1 (demoTwoState.pendingEdits.getD 0 default) (by decide) (by decide)
    rw [hpa] at this
    exact this
  · have := (h.2.1 (demoTwoState.pendingEdits.getD 1 default) (by decide)
      (strChars "boom") (by decide)).1
    rw [hpb] at this
    exact this
  · exact (h.2.1 (demoTwoState.pendingEdits.getD 1 default) (by decide)
      (strChars "boom") (by decide)).2.1

/-! ## Claim C8: context trimming and all-unchanged hunk discarding -/

theorem getLastD_eq_headD_reverse (l : List DiffLine) (d : DiffLine) :
    l.getLastD d = l.reverse.headD d := by
  rcases h : l.reverse with _ | ⟨x, xs⟩
  · have : l = [] := by simpa using congrArg List.reverse h
    simp [this]
  · have hl : l = xs.reverse ++ [x] := by
      have := congrArg List.reverse h
      simpa using this
    rw [hl]
    simp

theorem dropLast_reverse_eq_tail (l : List DiffLine) :
    l.dropLast.reverse = l.reverse.tail := by
  rcases h : l.reverse with _ | ⟨x, xs⟩
  · have : l = [] := by simpa using congrArg List.reverse h
    simp [this]
  · have hl : l = xs.reverse ++ [x] := by
      have := congrArg List.reverse h
      simpa using this
    rw [hl]
    simp

theorem countTrailingContext_pos (lines : List DiffLine)
    (h : countTrailingContext lines > 0) :
    lines ≠ [] ∧ (lines.getLastD default).type = DiffLineType.unchanged := by
  unfold countTrailingContext at h
  rcases hrev : lines.reverse with _ | ⟨x, xs⟩
  · rw [hrev] at h
    simp at h
  · have hne : lines ≠ [] := by
      intro hc
      rw [hc] at hrev
      simp at hrev
    rw [hrev] at h
    rw [List.takeWhile_cons] at h
    refine ⟨hne, ?_⟩
    rw [getLastD_eq_headD_reverse, hrev]
    by_cases hx : x.type = DiffLineType.unchanged
    · simpa using hx
    · simp [hx] at h

theorem countTrailingContext_dropLast (lines : List DiffLine)
    (h : countTrailingContext lines > 0) :
    countTrailingContext lines.dropLast = countTrailingContext lines - 1 := by
  unfold countTrailingContext at h ⊢
  rw [dropLast_reverse_eq_tail]
  rcases hrev : lines.reverse with _ | ⟨x, xs⟩
  · rw [hrev] at h
    simp at h
  · rw [hrev] at h
    rw [List.takeWhile_cons] at h
    simp only [List.tail_cons]
    by_cases hx : x.type = DiffLineType.unchanged
    · rw [List.takeWhile_cons]
      simp [hx]
    · simp [hx] at h

theorem trimHunk_trailing_le (h : DiffHunk) :
    countTrailingContext (trimHunk h).lines ≤ 3 := by
  induction h using trimHunk.induct with
  | case1 h hcond ih =>
    rw [trimHunk, if_pos hcond]
    exact ih
  | case2 h hcond =>
    rw [trimHunk, if_neg hcond]
    by_contra hgt
    push_neg at hgt
    have hpos : countTrailingContext h.lines > 0 := by omega
    have := countTrailingContext_pos h.lines hpos
    exact hcond ⟨this.1, this.2, by omega⟩

theorem trimHunk_trailing_eq (h : DiffHunk)
    (hge : countTrailingContext h.lines ≥ 3) :
    countTrailingContext (trimHunk h).lines = 3 := by
  induction h using trimHunk.induct with
  | case1 h hcond ih =>
    rw [trimHunk, if_pos hcond]
    apply ih
    have hgt : countTrailingContext h.lines > 3 := hcond.2.2
    have := countTrailingContext_dropLast h.lines (by omega)
    simp only [] at this ⊢
    omega
  | case2 h hcond =>
    rw [trimHunk, if_neg hcond]
    by_contra hne
    have hgt : countTrailingContext h.lines > 3 := by omega
    have := countTrailingContext_pos h.lines (by omega)
    exact hcond ⟨this.1, this.2, hgt⟩

/-- Every already-flushed hunk contains a changed line and carries exactly
3 trailing unchanged lines (the mid-walk flush invariant). -/
def HunksOK (hs : List DiffHunk) : Prop :=
  ∀ h ∈ hs, h.lines.any (fun l => l.type ≠ DiffLineType.unchanged) ∧
    countTrailingContext h.lines = 3

theorem pushLine_hunks (st : HunkState) (l : DiffLine) (a b : Nat) :
    (pushLine st l a b).hunks = st.hunks := by
  unfold pushLine
  cases st.currentHunk <;> rfl

theorem ensureHunk_hunks (st : HunkState) (i j : Nat) :
    (ensureHunk st i j).hunks = st.hunks := by
  unfold ensureHunk
  cases st.currentHunk <;> rfl

theorem foldl_hunks_preserved (f : HunkState → Nat → HunkState)
    (hf : ∀ st i, (f st i).hunks = st.hunks) (l : List Nat) (st : HunkState) :
    (l.foldl f st).hunks = st.hunks := by
  induction l generalizing st with
  | nil => rfl
  | cons x xs ih => rw [List.foldl_cons, ih, hf]

theorem pushRemoves_hunks (old : List Line) (st : HunkState) (a b c : Nat) :
    (pushRemoves old st a b c).hunks = st.hunks := by
  unfold pushRemoves
  exact foldl_hunks_preserved _ (fun st i => by rw [pushLine_hunks, ensureHunk_hunks]) _ st

theorem pushAdds_hunks (new : List Line) (st : HunkState) (a b c : Nat) :
    (pushAdds new st a b c).hunks = st.hunks := by
  unfold pushAdds
  exact foldl_hunks_preserved _ (fun st i => by rw [pushLine_hunks, ensureHunk_hunks]) _ st

theorem hunkRemainder_hunks (old new : List Line) (st : HunkState) (a b : Nat) :
    (hunkRemainder old new st a b).hunks = st.hunks := by
  unfold hunkRemainder
  rw [pushAdds_hunks, pushRemoves_hunks]

theorem flushHunk_none (st : HunkState) (hcur : st.currentHunk = none) :
    flushHunk st = st := by
  unfold flushHunk
  rw [hcur]

theorem flushHunk_some (st : HunkState) (hk : DiffHunk)
    (hcur : st.currentHunk = some hk) :
    flushHunk st =
      if hk.lines = [] then { currentHunk := none, hunks := st.hunks }
      else
        { currentHunk := none,
          hunks :=
            if (trimHunk hk).lines.any (fun l => l.type ≠ DiffLineType.unchanged) then
              st.hunks ++ [trimHunk hk]
            else st.hunks } := by
  simp only [flushHunk, hcur]

theorem flushHunk_hunks_ok_of_trailing (st : HunkState) (hk : DiffHunk)
    (hcur : st.currentHunk = some hk) (hge : countTrailingContext hk.lines ≥ 3)
    (hok : HunksOK st.hunks) : HunksOK (flushHunk st).hunks := by
  rw [flushHunk_some st hk hcur]
  by_cases hnil : hk.lines = []
  · rw [if_pos hnil]
    exact hok
  · rw [if_neg hnil]
    simp only []
    split
    · intro h hmem
      rcases List.mem_append.mp hmem with hmem | hmem
      · exact hok h hmem
      · have hh : h = trimHunk hk := by simpa using hmem
        subst hh
        refine ⟨by assumption, trimHunk_trailing_eq hk hge⟩
    · exact hok

theorem hunkWalk_step (old new : List Line) (oldIdx newIdx lcsOld lcsNew : Nat)
    (lcsRest : List (Nat × Nat)) (st : HunkState)
    (hcond : oldIdx < old.length ∨ newIdx < new.length)
    (hin : oldIdx < old.length ∧ newIdx < new.length) :
    hunkWalk old new oldIdx newIdx ((lcsOld, lcsNew) :: lcsRest) st =
      hunkWalk old new (max oldIdx lcsOld + 1) (max newIdx lcsNew + 1) lcsRest
        (pushCommon old
          (pushAdds new (pushRemoves old st oldIdx lcsOld newIdx)
            (max oldIdx lcsOld) newIdx lcsNew)
          (max oldIdx lcsOld) (max newIdx lcsNew)) := by
  rw [hunkWalk.eq_def]
  simp only [if_pos hcond, if_pos hin]

theorem hunkWalk_cons_rem (old new : List Line) (oldIdx newIdx lcsOld lcsNew : Nat)
    (lcsRest : List (Nat × Nat)) (st : HunkState)
    (hcond : oldIdx < old.length ∨ newIdx < new.length)
    (hin : ¬(oldIdx < old.length ∧ newIdx < new.length)) :
    hunkWalk old new oldIdx newIdx ((lcsOld, lcsNew) :: lcsRest) st =
      hunkRemainder old new st oldIdx newIdx := by
  rw [hunkWalk.eq_def]
  simp only [if_pos hcond, if_neg hin]

theorem hunkWalk_nil (old new : List Line) (oldIdx newIdx : Nat) (st : HunkState)
    (hcond : oldIdx < old.length ∨ newIdx < new.length) :
    hunkWalk old new oldIdx newIdx [] st = hunkRemainder old new st oldIdx newIdx := by
  rw [hunkWalk.eq_def]
  simp only [if_pos hcond]

theorem hunkWalk_done (old new : List Line) (oldIdx newIdx : Nat)
    (lcs : List (Nat × Nat)) (st : HunkState)
    (hcond : ¬(oldIdx < old.length ∨ newIdx < new.length)) :
    hunkWalk old new oldIdx newIdx lcs st = st := by
  rw [hunkWalk.eq_def]
  simp only [if_neg hcond]

theorem pushCommon_hunks_ok (old : List Line) (st : HunkState) (i j : Nat)
    (hok : HunksOK st.hunks) : HunksOK (pushCommon old st i j).hunks := by
  unfold pushCommon
  rcases hcur : st.currentHunk with _ | hk
  · exact hok
  · simp only []
    split
    · rename_i hgt
      refine flushHunk_hunks_ok_of_trailing _ _ rfl ?_ hok
      simp only []
      omega
    · exact hok

theorem hunkWalk_hunks_ok (old new : List Line) (oldIdx newIdx : Nat)
    (lcs : List (Nat × Nat)) (st : HunkState) (hok : HunksOK st.hunks) :
    HunksOK (hunkWalk old new oldIdx newIdx lcs st).hunks := by
  induction oldIdx, newIdx, lcs, st using hunkWalk.induct old new with
  | case1 oldIdx newIdx st hcond lcsOld lcsNew lcsRest hin _s1 _o1 _s2 _n1 _s3 ih =>
    rw [hunkWalk_step old new oldIdx newIdx lcsOld lcsNew lcsRest st hcond hin]
    apply ih
    apply pushCommon_hunks_ok
    rw [pushAdds_hunks, pushRemoves_hunks]
    exact hok
  | case2 oldIdx newIdx st hcond lcsOld lcsNew lcsRest hin =>
    rw [hunkWalk_cons_rem old new oldIdx newIdx lcsOld lcsNew lcsRest st hcond hin,
      hunkRemainder_hunks]
    exact hok
  | case3 oldIdx newIdx st hcond =>
    rw [hunkWalk_nil old new oldIdx newIdx st hcond, hunkRemainder_hunks]
    exact hok
  | case4 oldIdx newIdx lcs st hcond =>
    rw [hunkWalk_done old new oldIdx newIdx lcs st hcond]
    exact hok

/-- C8: in the output of `computeHunks`, every hunk contains a changed
line (an all-unchanged hunk is never emitted); every hunk except possibly
the final one was closed by the trailing-context overflow check and its
trailing unchanged run is trimmed to exactly 3 lines; and no emitted hunk
keeps more than 3 trailing unchanged lines. -/
theorem computeHunks_context_policy (old new : List Line) :
    (∀ h ∈ computeHunks old new,
      h.lines.any (fun l => l.type ≠ DiffLineType.unchanged)) ∧
    (∀ i, i + 1 < (computeHunks old new).length →
      countTrailingContext ((computeHunks old new).getD i default).lines = 3) ∧
    (∀ h ∈ computeHunks old new, countTrailingContext h.lines ≤ 3) := by
  have hW : HunksOK (hunkWalk old new 0 0 (computeLCS old new) ⟨none, []⟩).hunks :=
    hunkWalk_hunks_ok old new 0 0 (computeLCS old new) ⟨none, []⟩ (by
      intro h hmem
      simp at hmem)
  have hmain : ∀ hs : List DiffHunk,
      computeHunks old new = hs →
      (HunksOK hs ∨
        (∃ pre last, hs = pre ++ [last] ∧ HunksOK pre ∧
          last.lines.any (fun l => l.type ≠ DiffLineType.unchanged) ∧
          countTrailingContext last.lines ≤ 3)) := by
    intro hs hhs
    simp only [computeHunks] at hhs
    rcases hcur : (hunkWalk old new 0 0 (computeLCS old new) ⟨none, []⟩).currentHunk
      with _ | hk
    · rw [flushHunk_none _ hcur] at hhs
      exact Or.inl (hhs ▸ hW)
    · rw [flushHunk_some _ hk hcur] at hhs
      by_cases hnil : hk.lines = []
      · rw [if_pos hnil] at hhs
        exact Or.inl (hhs ▸ hW)
      · rw [if_neg hnil] at hhs
        simp only [] at hhs
        by_cases hany :
            (trimHunk hk).lines.any (fun l => l.type ≠ DiffLineType.unchanged)
        · rw [if_pos hany] at hhs
          refine Or.inr ⟨_, trimHunk hk, hhs.symm, hW, hany, trimHunk_trailing_le hk⟩
        · rw [if_neg hany] at hhs
          exact Or.inl (hhs ▸ hW)
  rcases hmain (computeHunks old new) rfl with hok | ⟨pre, last, heq, hpre, hany, hle⟩
  · refine ⟨fun h hm => (hok h hm).1, fun i hi => ?_, fun h hm => le_of_eq (hok h hm).2⟩
    have hmem : (computeHunks old new).getD i default ∈ computeHunks old new := by
      rw [List.getD_eq_getElem _ _ (by omega)]
      exact List.getElem_mem _
    exact (hok _ hmem).2
  · rw [heq]
    refine ⟨?_, ?_, ?_⟩
    · intro h hm
      rcases List.mem_append.mp hm with hm | hm
      · exact (hpre h hm).1
      · rw [List.mem_singleton.mp hm]
        exact hany
    · intro i hi
      rw [List.length_append, List.length_singleton] at hi
      have hilt : i < pre.length := by omega
      rw [List.getD_eq_getElem _ _ (by simp; omega),
        List.getElem_append_left hilt]
      have hmem : pre[i] ∈ pre := List.getElem_mem _
      exact (hpre _ hmem).2
    · intro h hm
      rcases List.mem_append.mp hm with hm | hm
      · exact le_of_eq (hpre h hm).2
      · rw [List.mem_singleton.mp hm]
        exact hle

/-- The single hunk of `computeHunks [] ["x"]`. -/
def hunkX : DiffHunk :=
  { oldStart := 1, oldLines := 0, newStart := 1, newLines := 1,
    lines := [{ type := DiffLineType.add, content := strChars "x",
                oldLineNumber := none, newLineNumber := some 1 }] }

/-- Witness for C8 at a concrete diff. -/
theorem computeHunks_context_policy_witness :
    hunkX ∈ computeHunks [] [strChars "x"] ∧
    (hunkX.lines.any (fun l => l.type ≠ DiffLineType.unchanged)) ∧
    countTrailingContext hunkX.lines ≤ 3 := by
  have hcomp : computeHunks [] [strChars "x"] = [hunkX] := by
    simp [computeHunks, computeLCS, computeLCSDP, lcsBacktrack, hunkWalk.eq_def,
      hunkRemainder, pushRemoves, pushAdds, ensureHunk, pushLine, addLine,
      flushHunk, trimHunk.eq_def, countTrailingContext, strChars, hunkX]
  have hmem : hunkX ∈ computeHunks [] [strChars "x"] := by
    rw [hcomp]
    exact List.mem_singleton.mpr rfl
  exact ⟨hmem, (computeHunks_context_policy [] [strChars "x"]).1 hunkX hmem,
    (computeHunks_context_policy [] [strChars "x"]).2.2 hunkX hmem⟩

/-! ## Claim C1: round-trip machinery — segments -/

/-- The segment `l[a..b)` of a line list. -/
def segOf (l : List Line) (a b : Nat) : List Line := (l.drop a).take (b - a)

theorem segOf_self (l : List Line) (a : Nat) : segOf l a a = [] := by
  simp [segOf]

theorem segOf_cons (l : List Line) (a b : Nat) (hab : a < b) (ha : a < l.length) :
    segOf l a b = l.getD a [] :: segOf l (a + 1) b := by
  unfold segOf
  rw [List.getD_eq_getElem l [] ha]
  rw [List.drop_eq_getElem_cons ha]
  have : b - a = (b - (a + 1)) + 1 := by omega
  rw [this, List.take_succ_cons]

theorem drop_eq_segOf_append (l : List Line) (a b : Nat) (hab : a ≤ b) :
    l.drop a = segOf l a b ++ l.drop b := by
  unfold segOf
  have h1 : l.drop b = (l.drop a).drop (b - a) := by
    rw [List.drop_drop]
    congr 1
    omega
  rw [h1, List.take_append_drop]

theorem segOf_append_segOf (l : List Line) (a b c : Nat) (hab : a ≤ b) (hbc : b ≤ c) :
    segOf l a b ++ segOf l b c = segOf l a c := by
  unfold segOf
  have h1 : l.drop b = (l.drop a).drop (b - a) := by
    rw [List.drop_drop]
    congr 1
    omega
  have h2 : c - a = (b - a) + (c - b) := by omega
  rw [h1, h2, List.take_add]

theorem segOf_snoc (l : List Line) (a b : Nat) (hab : a ≤ b) (hb : b < l.length) :
    segOf l a b ++ [l.getD b []] = segOf l a (b + 1) := by
  have h1 : segOf l b (b + 1) = [l.getD b []] := by
    rw [segOf_cons l b (b + 1) (by omega) hb, segOf_self]
  rw [← h1, segOf_append_segOf l a b (b + 1) hab (by omega)]

theorem segOf_length (l : List Line) (a b : Nat) (hab : a ≤ b) (hb : b ≤ l.length) :
    (segOf l a b).length = b - a := by
  unfold segOf
  rw [List.length_take, List.length_drop]
  omega

theorem mem_segOf (l : List Line) (a b : Nat) (x : Line) (hx : x ∈ segOf l a b) :
    x ∈ l := by
  unfold segOf at hx
  exact List.mem_of_mem_drop (List.mem_of_mem_take hx)

/-! ## Claim C1: number rendering round-trip -/

theorem char_toNat_digit (n : Nat) (h : n < 10) :
    (Char.ofNat (48 + n)).toNat = 48 + n := by
  have hv : Nat.isValidChar (48 + n) := Or.inl (by omega)
  simp [Char.ofNat, Char.ofNatAux, hv, Char.toNat, UInt32.toNat]

theorem repNat_all_digits (n : Nat) : ∀ c ∈ repNat n, isDigitChar c = true := by
  induction n using repNat.induct with
  | case1 n h =>
    rw [repNat, if_pos h]
    intro c hc
    rw [List.mem_singleton.mp hc]
    simp only [isDigitChar, char_toNat_digit n h]
    simp
    omega
  | case2 n h ih =>
    rw [repNat, if_neg h]
    intro c hc
    rcases List.mem_append.mp hc with hc | hc
    · exact ih c hc
    · rw [List.mem_singleton.mp hc]
      have h10 : n % 10 < 10 := Nat.mod_lt n (by omega)
      simp only [isDigitChar, char_toNat_digit (n % 10) h10]
      simp
      omega

theorem repNat_ne_nil (n : Nat) : repNat n ≠ [] := by
  induction n using repNat.induct with
  | case1 n h => rw [repNat, if_pos h]; simp
  | case2 n h ih => rw [repNat, if_neg h]; simp

theorem repNat_no_newline (n : Nat) : ∀ c ∈ repNat n, c ≠ Char.ofNat 10 := by
  intro c hc hc10
  have := repNat_all_digits n c hc
  rw [hc10] at this
  simp [isDigitChar] at this

theorem digitsToNat_append_digit (l : List Char) (c : Char) :
    digitsToNat (l ++ [c]) = 10 * digitsToNat l + (c.toNat - 48) := by
  unfold digitsToNat
  rw [List.foldl_append]
  rfl

theorem digitsToNat_repNat (n : Nat) : digitsToNat (repNat n) = n := by
  induction n using repNat.induct with
  | case1 n h =>
    rw [repNat, if_pos h]
    unfold digitsToNat
    simp [char_toNat_digit n h]
  | case2 n h ih =>
    rw [repNat, if_neg h, digitsToNat_append_digit, ih,
      char_toNat_digit (n % 10) (Nat.mod_lt n (by omega))]
    omega

theorem takeWhile_digits_append (l rest : List Char)
    (hl : ∀ c ∈ l, isDigitChar c = true) :
    (l ++ rest).takeWhile isDigitChar = l ++ rest.takeWhile isDigitChar ∧
    (l ++ rest).dropWhile isDigitChar = rest.dropWhile isDigitChar := by
  induction l with
  | nil => simp
  | cons c cs ih =>
    have hc : isDigitChar c = true := hl c (by simp)
    have := ih (fun d hd => hl d (by simp [hd]))
    simp only [List.cons_append, List.takeWhile_cons, List.dropWhile_cons, hc]
    simp [this.1, this.2]

theorem parseNatSeg_repNat (n : Nat) (rest : List Char)
    (hrest : rest.takeWhile isDigitChar = []) :
    parseNatSeg (repNat n ++ rest) = some (n, rest) := by
  unfold parseNatSeg
  have hdig := takeWhile_digits_append (repNat n) rest (repNat_all_digits n)
  rw [hdig.1, hdig.2, hrest]
  rw [if_neg (by simp [repNat_ne_nil n])]
  rw [List.append_nil, digitsToNat_repNat]
  have hdw : rest.dropWhile isDigitChar = rest := by
    cases rest with
    | nil => rfl
    | cons c cs =>
      rw [List.takeWhile_cons] at hrest
      by_cases hc : isDigitChar c = true
      · rw [if_pos hc] at hrest
        simp at hrest
      · rw [List.dropWhile_cons, if_neg hc]
  rw [hdw]

theorem takeWhile_comma (t : List Char) : (',' :: t).takeWhile isDigitChar = [] := by
  rw [List.takeWhile_cons]
  simp [show isDigitChar ',' = false by decide]

theorem takeWhile_space (t : List Char) : (' ' :: t).takeWhile isDigitChar = [] := by
  rw [List.takeWhile_cons]
  simp [show isDigitChar ' ' = false by decide]

theorem parseHunkHeader_hunkHeader (h : DiffHunk) :
    parseHunkHeader (hunkHeader h) =
      some (h.oldStart, h.oldLines, h.newStart, h.newLines) := by
  have e1 : hunkHeader h = '@' :: '@' :: ' ' :: '-' ::
      (repNat h.oldStart ++ (',' :: (repNat h.oldLines ++ (' ' :: '+' ::
        (repNat h.newStart ++ (',' :: (repNat h.newLines ++ [' ', '@', '@']))))))) := by
    simp [hunkHeader, strChars]
  rw [e1]
  simp only [parseHunkHeader,
    parseNatSeg_repNat h.oldStart _ (takeWhile_comma _),
    parseNatSeg_repNat h.oldLines _ (takeWhile_space _),
    parseNatSeg_repNat h.newStart _ (takeWhile_comma _),
    parseNatSeg_repNat h.newLines _ (takeWhile_space _)]

/-! ## Claim C1: body projections and the parse round-trip -/

/-- Old-side contents of a hunk body (remove and unchanged lines). -/
def bodyOldLines (lines : List DiffLine) : List Line :=
  (lines.filter (fun l => l.type ≠ DiffLineType.add)).map (fun l => l.content)

/-- New-side contents of a hunk body (add and unchanged lines). -/
def bodyNewLines (lines : List DiffLine) : List Line :=
  (lines.filter (fun l => l.type ≠ DiffLineType.remove)).map (fun l => l.content)

/-- Old-side line count of a hunk body. -/
def oldCount (lines : List DiffLine) : Nat :=
  (lines.filter (fun l => l.type ≠ DiffLineType.add)).length

/-- New-side line count of a hunk body. -/
def newCount (lines : List DiffLine) : Nat :=
  (lines.filter (fun l => l.type ≠ DiffLineType.remove)).length

/-- The tagged pairs a parsed hunk stores for a rendered body. -/
def toTagged (lines : List DiffLine) : List (DiffLineType × Line) :=
  lines.map (fun l => (l.type, l.content))

theorem parseTag_tagChar (t : DiffLineType) (content : Line) :
    parseTag (tagChar t :: content) = some (t, content) := by
  cases t <;> rfl

theorem parseBody_render (lines : List DiffLine) (rest : List Line) :
    parseBody (lines.map (fun l => tagChar l.type :: l.content) ++ rest)
      (oldCount lines) (newCount lines) = some (toTagged lines, rest) := by
  induction lines with
  | nil =>
    rw [parseBody.eq_def]
    simp [oldCount, newCount, toTagged]
  | cons l tl ih =>
    rcases ht : l.type with _ | _ | _
    · have ho : oldCount (l :: tl) = oldCount tl := by simp [oldCount, ht]
      have hn : newCount (l :: tl) = newCount tl + 1 := by simp [newCount, ht]
      rw [ho, hn, parseBody.eq_def]
      simp [parseTag_tagChar, ht, ih, toTagged]
    · have ho : oldCount (l :: tl) = oldCount tl + 1 := by simp [oldCount, ht]
      have hn : newCount (l :: tl) = newCount tl := by simp [newCount, ht]
      rw [ho, hn, parseBody.eq_def]
      simp [parseTag_tagChar, ht, ih, toTagged]
    · have ho : oldCount (l :: tl) = oldCount tl + 1 := by simp [oldCount, ht]
      have hn : newCount (l :: tl) = newCount tl + 1 := by simp [newCount, ht]
      rw [ho, hn, parseBody.eq_def]
      simp [parseTag_tagChar, ht, ih, toTagged]

def toParsedHunk (h : DiffHunk) : ParsedHunk :=
  { oldStart := h.oldStart, oldLen := h.oldLines, newStart := h.newStart,
    newLen := h.newLines, body := toTagged h.lines }

theorem parseHunks_render (hs : List DiffHunk)
    (hcnt : ∀ h ∈ hs, h.oldLines = oldCount h.lines ∧ h.newLines = newCount h.lines) :
    parseHunks ((hs.map hunkRender).flatten) = some (hs.map toParsedHunk) := by
  induction hs with
  | nil =>
    rw [parseHunks.eq_def]
    rfl
  | cons h tl ih =>
    have hb : parseBody ((h.lines.map (fun l => tagChar l.type :: l.content)) ++
        (tl.map hunkRender).flatten) h.oldLines h.newLines =
        some (toTagged h.lines, (tl.map hunkRender).flatten) := by
      rw [(hcnt h (by simp)).1, (hcnt h (by simp)).2]
      exact parseBody_render h.lines ((tl.map hunkRender).flatten)
    have hflat : ((h :: tl).map hunkRender).flatten =
        hunkHeader h :: ((h.lines.map (fun l => tagChar l.type :: l.content)) ++
          (tl.map hunkRender).flatten) := by
      simp [hunkRender]
    rw [hflat, parseHunks.eq_def]
    simp only [parseHunkHeader_hunkHeader h]
    split
    · rename_i heq
      rw [hb] at heq
      cases heq
    · rename_i br heq
      rw [hb] at heq
      injection heq with heq2
      subst heq2
      simp only [ih (fun x hx => hcnt x (by simp [hx]))]
      rfl

/-! ## Claim C1: semantic hunk-chain validity and patch application -/

/-- Old-side contents of a tagged body. -/
def bodyOldTagged (b : List (DiffLineType × Line)) : List Line :=
  (b.filter (fun p => p.1 ≠ DiffLineType.add)).map (fun p => p.2)

/-- New-side contents of a tagged body. -/
def bodyNewTagged (b : List (DiffLineType × Line)) : List Line :=
  (b.filter (fun p => p.1 ≠ DiffLineType.remove)).map (fun p => p.2)

/-- Old-side count of a tagged body. -/
def oldCountTagged (b : List (DiffLineType × Line)) : Nat :=
  (b.filter (fun p => p.1 ≠ DiffLineType.add)).length

theorem bodyOldTagged_toTagged (lines : List DiffLine) :
    bodyOldTagged (toTagged lines) = bodyOldLines lines := by
  unfold bodyOldTagged toTagged bodyOldLines
  induction lines with
  | nil => rfl
  | cons l tl ih =>
    by_cases hl : l.type = DiffLineType.add <;> simp [hl] at ih ⊢ <;> simp [ih]

theorem bodyNewTagged_toTagged (lines : List DiffLine) :
    bodyNewTagged (toTagged lines) = bodyNewLines lines := by
  unfold bodyNewTagged toTagged bodyNewLines
  induction lines with
  | nil => rfl
  | cons l tl ih =>
    by_cases hl : l.type = DiffLineType.remove <;> simp [hl] at ih ⊢ <;> simp [ih]

theorem oldCountTagged_toTagged (lines : List DiffLine) :
    oldCountTagged (toTagged lines) = oldCount lines := by
  unfold oldCountTagged toTagged oldCount
  induction lines with
  | nil => rfl
  | cons l tl ih =>
    by_cases hl : l.type = DiffLineType.add <;> simp [hl] at ih ⊢ <;> simp [ih]

/-- One hunk sits correctly after synchronized positions `oEnd`/`nEnd`:
an equal unpatched gap precedes it, its header numbers agree with its
body, its old side reads the old segment it covers and its new side is
the corresponding new segment. -/
def HunkFits (old new : List Line) (oEnd nEnd : Nat) (h : DiffHunk) : Prop :=
  1 ≤ h.oldStart ∧ 1 ≤ h.newStart ∧
  oEnd ≤ h.oldStart - 1 ∧ nEnd ≤ h.newStart - 1 ∧
  h.oldStart - 1 - oEnd = h.newStart - 1 - nEnd ∧
  segOf old oEnd (h.oldStart - 1) = segOf new nEnd (h.newStart - 1) ∧
  h.oldLines = oldCount h.lines ∧ h.newLines = newCount h.lines ∧
  bodyOldLines h.lines = segOf old (h.oldStart - 1) (h.oldStart - 1 + h.oldLines) ∧
  bodyNewLines h.lines = segOf new (h.newStart - 1) (h.newStart - 1 + h.newLines) ∧
  h.oldStart - 1 + h.oldLines ≤ old.length ∧
  h.newStart - 1 + h.newLines ≤ new.length

/-- Validity of a hunk chain against old/new line lists, starting from
synchronized positions `oPos`/`nPos`: every hunk fits after the previous
one and past the last hunk the remainders agree. -/
def ChainFrom (old new : List Line) : Nat → Nat → List DiffHunk → Prop
  | oPos, nPos, [] => old.drop oPos = new.drop nPos
  | oPos, nPos, h :: hs =>
      HunkFits old new oPos nPos h ∧
      ChainFrom old new (h.oldStart - 1 + h.oldLines) (h.newStart - 1 + h.newLines) hs

theorem applyBody_spec (old : List Line) (body : List (DiffLineType × Line))
    (pos : Nat)
    (hold : bodyOldTagged body = segOf old pos (pos + oldCountTagged body))
    (hle : pos + oldCountTagged body ≤ old.length) :
    applyBody old pos body = some (bodyNewTagged body, pos + oldCountTagged body) := by
  induction body generalizing pos with
  | nil =>
    simp [applyBody, bodyNewTagged, oldCountTagged]
  | cons p rest ih =>
    rcases p with ⟨t, c⟩
    rcases t with _ | _ | _
    · have hco : oldCountTagged ((DiffLineType.add, c) :: rest) = oldCountTagged rest := by
        simp [oldCountTagged]
      rw [hco] at hold hle
      have hbo : bodyOldTagged ((DiffLineType.add, c) :: rest) = bodyOldTagged rest := by
        simp [bodyOldTagged]
      rw [hbo] at hold
      rw [applyBody, ih pos hold hle]
      simp [bodyNewTagged, hco]
    · have hco : oldCountTagged ((DiffLineType.remove, c) :: rest) =
          oldCountTagged rest + 1 := by
        simp [oldCountTagged]
      rw [hco] at hold hle
      have hbo : bodyOldTagged ((DiffLineType.remove, c) :: rest) =
          c :: bodyOldTagged rest := by
        simp [bodyOldTagged]
      rw [hbo] at hold
      have hposlt : pos < old.length := by omega
      rw [segOf_cons old pos _ (by omega) hposlt] at hold
      have hhead : old.getD pos [] = c := by
        have := congrArg (fun l => l.headD []) hold
        simpa using this.symm
      have htail : bodyOldTagged rest = segOf old (pos + 1) (pos + 1 + oldCountTagged rest) := by
        have := congrArg List.tail hold
        simp at this
        rw [this]
        congr 1
        omega
      rw [applyBody]
      rw [show old[pos]? = some c by
        rw [List.getElem?_eq_getElem hposlt]
        rw [← hhead, List.getD_eq_getElem old [] hposlt]]
      rw [if_pos rfl, ih (pos + 1) htail (by omega)]
      have harith : pos + 1 + oldCountTagged rest = pos + (oldCountTagged rest + 1) := by
        omega
      simp [bodyNewTagged, harith]
      exact hco.symm
    · have hco : oldCountTagged ((DiffLineType.unchanged, c) :: rest) =
          oldCountTagged rest + 1 := by
        simp [oldCountTagged]
      rw [hco] at hold hle
      have hbo : bodyOldTagged ((DiffLineType.unchanged, c) :: rest) =
          c :: bodyOldTagged rest := by
        simp [bodyOldTagged]
      rw [hbo] at hold
      have hposlt : pos < old.length := by omega
      rw [segOf_cons old pos _ (by omega) hposlt] at hold
      have hhead : old.getD pos [] = c := by
        have := congrArg (fun l => l.headD []) hold
        simpa using this.symm
      have htail : bodyOldTagged rest = segOf old (pos + 1) (pos + 1 + oldCountTagged rest) := by
        have := congrArg List.tail hold
        simp at this
        rw [this]
        congr 1
        omega
      rw [applyBody]
      rw [show old[pos]? = some c by
        rw [List.getElem?_eq_getElem hposlt]
        rw [← hhead, List.getD_eq_getElem old [] hposlt]]
      rw [if_pos rfl, ih (pos + 1) htail (by omega)]
      have harith : pos + 1 + oldCountTagged rest = pos + (oldCountTagged rest + 1) := by
        omega
      simp [bodyNewTagged, harith]
      exact hco.symm

theorem applyHunks_chain (old new : List Line) (hs : List DiffHunk)
    (oPos nPos : Nat) (hchain : ChainFrom old new oPos nPos hs) :
    applyHunks old oPos (hs.map toParsedHunk) = some (new.drop nPos) := by
  induction hs generalizing oPos nPos with
  | nil =>
    unfold ChainFrom at hchain
    simp [applyHunks, hchain]
  | cons h tl ih =>
    unfold ChainFrom at hchain
    obtain ⟨⟨h1, h2, h3, h4, h5, h6, h7, h8, h9, h10, h11, h12⟩, hrest⟩ := hchain
    rw [List.map_cons, applyHunks]
    simp only [toParsedHunk]
    rw [if_pos ⟨h1, h3, by omega⟩]
    have hbody : applyBody old (h.oldStart - 1) (toTagged h.lines) =
        some (bodyNewLines h.lines, h.oldStart - 1 + h.oldLines) := by
      have hspec := applyBody_spec old (toTagged h.lines) (h.oldStart - 1)
        (by
          rw [bodyOldTagged_toTagged, oldCountTagged_toTagged, ← h7]
          exact h9)
        (by
          rw [oldCountTagged_toTagged, ← h7]
          exact h11)
      rw [bodyNewTagged_toTagged, oldCountTagged_toTagged, ← h7] at hspec
      exact hspec
    rw [hbody]
    simp only [ih _ _ hrest]
    have hgap : (old.drop oPos).take (h.oldStart - 1 - oPos) =
        segOf new nPos (h.newStart - 1) := by
      rw [← h6]
      rfl
    have hfinal : (old.drop oPos).take (h.oldStart - 1 - oPos) ++
        bodyNewLines h.lines ++ new.drop (h.newStart - 1 + h.newLines) =
        new.drop nPos := by
      rw [hgap, h10,
        drop_eq_segOf_append new nPos (h.newStart - 1) h4,
        drop_eq_segOf_append new (h.newStart - 1) (h.newStart - 1 + h.newLines)
          (by omega),
        List.append_assoc]
    rw [hfinal]

/-! ## Claim C1: validity of the computed alignment (DP branch) -/

/-- A valid alignment from positions `(oi, ni)`: strictly increasing
in-range pairs of equal lines. -/
def AlignOK (old new : List Line) : Nat → Nat → List (Nat × Nat) → Prop
  | _, _, [] => True
  | oi, ni, (i, j) :: rest =>
      oi ≤ i ∧ ni ≤ j ∧ i < old.length ∧ j < new.length ∧
      old.getD i [] = new.getD j [] ∧ AlignOK old new (i + 1) (j + 1) rest

theorem alignOK_snoc (old new : List Line) (l : List (Nat × Nat)) (oi ni i j : Nat)
    (h : AlignOK old new oi ni l) (hbound : ∀ p ∈ l, p.1 < i ∧ p.2 < j)
    (hoi : oi ≤ i) (hni : ni ≤ j) (hi : i < old.length) (hj : j < new.length)
    (heq : old.getD i [] = new.getD j []) :
    AlignOK old new oi ni (l ++ [(i, j)]) := by
  induction l generalizing oi ni with
  | nil =>
    exact ⟨hoi, hni, hi, hj, heq, trivial⟩
  | cons p rest ih =>
    rcases p with ⟨a, b⟩
    obtain ⟨h1, h2, h3, h4, h5, h6⟩ := h
    have hab := hbound (a, b) (by simp)
    exact ⟨h1, h2, h3, h4, h5,
      ih (a + 1) (b + 1) h6 (fun q hq => hbound q (by simp [hq]))
        (by omega) (by omega)⟩

theorem lcsBacktrack_alignOK (old new : List Line) (i j : Nat) :
    i ≤ old.length → j ≤ new.length →
    AlignOK old new 0 0 (lcsBacktrack old new i j) ∧
    ∀ p ∈ lcsBacktrack old new i j, p.1 < i ∧ p.2 < j := by
  induction i, j using lcsBacktrack.induct old new with
  | case1 j =>
    intro hi hj
    rw [lcsBacktrack]
    exact ⟨trivial, by simp⟩
  | case2 i =>
    intro hi hj
    rw [lcsBacktrack]
    exact ⟨trivial, by simp⟩
  | case3 i j heq ih =>
    intro hi hj
    rw [lcsBacktrack, if_pos heq]
    have hilt : i < old.length := by omega
    have hjlt : j < new.length := by omega
    have ihs := ih (by omega) (by omega)
    have hgd : old.getD i [] = new.getD j [] := by
      rw [List.getElem?_eq_getElem hilt, List.getElem?_eq_getElem hjlt] at heq
      rw [List.getD_eq_getElem old [] hilt, List.getD_eq_getElem new [] hjlt]
      exact Option.some.inj heq
    refine ⟨alignOK_snoc old new _ 0 0 i j ihs.1 ihs.2 (by omega) (by omega)
      hilt hjlt hgd, ?_⟩
    intro p hp
    rcases List.mem_append.mp hp with hp | hp
    · have := ihs.2 p hp
      omega
    · rw [List.mem_singleton.mp hp]
      omega
  | case4 i j heq hgt ih =>
    intro hi hj
    rw [lcsBacktrack, if_neg heq, if_pos hgt]
    have ihs := ih (by omega) hj
    refine ⟨ihs.1, fun p hp => ?_⟩
    have := ihs.2 p hp
    omega
  | case5 i j heq hgt ih =>
    intro hi hj
    rw [lcsBacktrack, if_neg heq, if_neg hgt]
    have ihs := ih hi (by omega)
    refine ⟨ihs.1, fun p hp => ?_⟩
    have := ihs.2 p hp
    omega

theorem computeLCSDP_alignOK (old new : List Line) :
    AlignOK old new 0 0 (computeLCSDP old new) :=
  (lcsBacktrack_alignOK old new old.length new.length (le_refl _) (le_refl _)).1

/-! ## Claim C1: validity of the computed alignment (patience branch) -/

theorem line_beq_instances_eq :
    (List.instBEq : BEq Line) = instBEqOfDecidableEq :=
  lawful_beq_subsingleton _ _

theorem patienceMatches_mem (old new : List Line) (p : Nat × Nat)
    (hp : p ∈ patienceMatches old new) :
    p.1 < old.length ∧ p.2 < new.length ∧
      old.getD p.1 [] = new.getD p.2 [] := by
  unfold patienceMatches at hp
  rcases List.mem_filterMap.mp hp with ⟨i, hi, hf⟩
  simp only [] at hf
  split at hf
  · rename_i hcond
    injection hf with hf
    subst hf
    have hilt : i < old.length := List.mem_range.mp hi
    have hmem : old.getD i [] ∈ new := by
      have : 0 < new.count (old.getD i []) := by omega
      exact List.count_pos_iff.mp this
    have hidx : @List.indexOf Line List.instBEq (old.getD i []) new < new.length := by
      rw [line_beq_instances_eq]
      exact List.indexOf_lt_length.mpr hmem
    refine ⟨hilt, ?_, ?_⟩
    · exact hidx
    · show old.getD i [] =
        new.getD (@List.indexOf Line List.instBEq (old.getD i []) new) []
      rw [line_beq_instances_eq] at hidx ⊢
      rw [List.getD_eq_getElem new [] hidx]
      exact (List.getElem_indexOf hidx).symm
  · cases hf

theorem filterMap_if_fst (Q : Nat → Prop) [DecidablePred Q] (g : Nat → Nat)
    (l : List Nat) :
    ((l.filterMap fun i => if Q i then some (i, g i) else none).map
      (fun p => p.1)) = l.filter (fun i => Q i) := by
  induction l with
  | nil => rfl
  | cons a l ih =>
    rw [List.filterMap_cons, List.filter_cons]
    by_cases hq : Q a
    · rw [if_pos hq, List.map_cons, ih, if_pos (by simpa using hq)]
    · rw [if_neg hq, ih, if_neg (by simpa using hq)]

theorem patienceMatches_fst (old new : List Line) :
    (patienceMatches old new).map (fun p => p.1) =
      (List.range old.length).filter
        (fun i => old.count (old.getD i []) = 1 ∧ new.count (old.getD i []) = 1) := by
  exact filterMap_if_fst
    (fun i => old.count (old.getD i []) = 1 ∧ new.count (old.getD i []) = 1)
    (fun i => @List.indexOf Line List.instBEq (old.getD i []) new)
    (List.range old.length)

theorem patienceMatches_fst_sorted (old new : List Line) :
    ((patienceMatches old new).map (fun p => p.1)).Pairwise (· < ·) := by
  rw [patienceMatches_fst]
  exact (List.pairwise_lt_range old.length).sublist (List.filter_sublist _)

/-- Invariant of the `prev` pointer array of `computeLIS`. -/
def PrevInv (arr : List Nat) (prev : List (Option Nat)) : Prop :=
  ∀ idx j, prev.getD idx none = some j → j < idx ∧ arr.getD j 0 < arr.getD idx 0

theorem lisInner_spec (arr : List Nat) (dp : List Nat) (i : Nat) :
    ∀ j, (lisInner arr dp i).2 = some j →
      j < i ∧ arr.getD j 0 < arr.getD i 0 := by
  unfold lisInner
  have hgen : ∀ (l : List Nat) (st : Nat × Option Nat),
      (∀ j ∈ l, j < i) →
      (∀ j, st.2 = some j → j < i ∧ arr.getD j 0 < arr.getD i 0) →
      ∀ j, (l.foldl
        (fun st j =>
          if arr.getD j 0 < arr.getD i 0 ∧ dp.getD j 0 + 1 > st.1 then
            (dp.getD j 0 + 1, some j)
          else st) st).2 = some j →
        j < i ∧ arr.getD j 0 < arr.getD i 0 := by
    intro l
    induction l with
    | nil => exact fun st _ h => h
    | cons a tl ih =>
      intro st hl hst
      rw [List.foldl_cons]
      apply ih _ (fun j hj => hl j (by simp [hj]))
      intro j hj
      by_cases hcond : arr.getD a 0 < arr.getD i 0 ∧ dp.getD a 0 + 1 > st.1
      · rw [if_pos hcond] at hj
        have : a = j := Option.some.inj hj
        subst this
        exact ⟨hl a (by simp), hcond.1⟩
      · rw [if_neg hcond] at hj
        exact hst j hj
  exact hgen (List.range i) (1, none) (fun j hj => List.mem_range.mp hj) (by simp)

theorem lisStep_inv (arr : List Nat)
    (st : List Nat × List (Option Nat) × Nat × Nat) (i : Nat)
    (hlen : st.2.1.length = i) (hprev : PrevInv arr st.2.1) :
    (lisStep arr st i).2.1.length = i + 1 ∧ PrevInv arr (lisStep arr st i).2.1 ∧
    ((lisStep arr st i).2.2.2 = i ∨ (lisStep arr st i).2.2.2 = st.2.2.2) := by
  have hres : (lisStep arr st i).2.1 = st.2.1 ++ [(lisInner arr st.1 i).2] ∧
      ((lisStep arr st i).2.2.2 = i ∨ (lisStep arr st i).2.2.2 = st.2.2.2) := by
    simp only [lisStep]
    split <;> simp
  refine ⟨?_, ?_, hres.2⟩
  · rw [hres.1]
    simp [hlen]
  · rw [hres.1]
    intro idx j hj
    rw [List.getD_eq_getElem?_getD] at hj
    by_cases hidx : idx < st.2.1.length
    · rw [List.getElem?_append_left hidx] at hj
      exact hprev idx j (by rw [List.getD_eq_getElem?_getD]; exact hj)
    · by_cases heq : idx = st.2.1.length
      · subst heq
        rw [List.getElem?_append_right (by omega)] at hj
        simp at hj
        have hspec := lisInner_spec arr st.1 i j hj
        rw [hlen]
        exact hspec
      · rw [List.getElem?_append_right (by omega)] at hj
        have hgt : 1 ≤ idx - st.2.1.length := by omega
        rw [List.getElem?_eq_none (by simp; omega)] at hj
        cases hj

theorem lisState_fold_inv (arr : List Nat) (k : Nat) :
    ((List.range' 1 k).foldl (lisStep arr) ([1], [none], 1, 0)).2.1.length = k + 1 ∧
    PrevInv arr ((List.range' 1 k).foldl (lisStep arr) ([1], [none], 1, 0)).2.1 ∧
    ((List.range' 1 k).foldl (lisStep arr) ([1], [none], 1, 0)).2.2.2 ≤ k := by
  induction k with
  | zero =>
    refine ⟨rfl, ?_, le_refl 0⟩
    intro idx j hj
    rcases idx with _ | idx
    · cases hj
    · rcases idx with _ | idx <;> cases hj
  | succ k ih =>
    obtain ⟨ihlen, ihprev, ihmax⟩ := ih
    rw [List.range'_1_concat, List.foldl_append, List.foldl_cons, List.foldl_nil]
    have hstep := lisStep_inv arr
      ((List.range' 1 k).foldl (lisStep arr) ([1], [none], 1, 0)) (1 + k)
      (by omega) ihprev
    refine ⟨by omega, hstep.2.1, ?_⟩
    rcases hstep.2.2 with h | h <;> omega

/-- Strict increase in both index and value along the LIS result. -/
def lisRel (arr : List Nat) (a b : Nat) : Prop :=
  a < b ∧ arr.getD a 0 < arr.getD b 0

theorem lisBacktrack_spec (arr : List Nat) (prev : List (Option Nat))
    (hprev : PrevInv arr prev) (fuel : Nat) :
    ∀ idx, idx ≤ fuel →
      List.Chain' (lisRel arr) (lisBacktrack prev fuel idx) ∧
      (lisBacktrack prev fuel idx).getLast? = some idx ∧
      ∀ x ∈ lisBacktrack prev fuel idx, x ≤ idx := by
  induction fuel with
  | zero =>
    intro idx hidx
    rw [lisBacktrack]
    exact ⟨List.chain'_singleton idx, rfl, by simp⟩
  | succ fuel ih =>
    intro idx hidx
    rw [lisBacktrack]
    rcases hp : prev.getD idx none with _ | j
    · exact ⟨List.chain'_singleton idx, rfl, by simp⟩
    · have hj := hprev idx j hp
      have hsub := ih j (by omega)
      refine ⟨?_, ?_, ?_⟩
      · rw [List.chain'_append]
        refine ⟨hsub.1, List.chain'_singleton idx, ?_⟩
        intro x hx y hy
        rw [hsub.2.1] at hx
        simp at hx hy
        rw [← hx, ← hy]
        exact ⟨hj.1, hj.2⟩
      · rw [List.getLast?_concat]
      · intro x hx
        rcases List.mem_append.mp hx with hx | hx
        · have := hsub.2.2 x hx
          omega
        · rw [List.mem_singleton.mp hx]

theorem computeLIS_spec (arr : List Nat) :
    List.Chain' (lisRel arr) (computeLIS arr) ∧
    ∀ x ∈ computeLIS arr, x < arr.length := by
  unfold computeLIS
  by_cases harr : arr = []
  · rw [if_pos harr]
    exact ⟨List.chain'_nil, by simp⟩
  · rw [if_neg harr]
    have hinv := lisState_fold_inv arr (arr.length - 1)
    have hlen : 1 ≤ arr.length := by
      rcases arr with _ | _
      · exact absurd rfl harr
      · simp
    have hbt := lisBacktrack_spec arr (lisState arr).2.1
      (by exact hinv.2.1) (lisState arr).2.2.2 (lisState arr).2.2.2 (le_refl _)
    refine ⟨hbt.1, fun x hx => ?_⟩
    have h1 := hbt.2.2 x hx
    have h2 : (lisState arr).2.2.2 ≤ arr.length - 1 := hinv.2.2
    omega

theorem alignOK_cons (old new : List Line) (oi ni : Nat) (p : Nat × Nat)
    (l : List (Nat × Nat)) :
    AlignOK old new oi ni (p :: l) ↔
      oi ≤ p.1 ∧ ni ≤ p.2 ∧ p.1 < old.length ∧ p.2 < new.length ∧
      old.getD p.1 [] = new.getD p.2 [] ∧ AlignOK old new (p.1 + 1) (p.2 + 1) l := by
  rcases p with ⟨i, j⟩
  exact Iff.rfl

theorem alignOK_of_chain (old new : List Line) (ms : List (Nat × Nat))
    (hmem : ∀ p ∈ ms, p.1 < old.length ∧ p.2 < new.length ∧
      old.getD p.1 [] = new.getD p.2 [])
    (hsorted : (ms.map (fun p => p.1)).Pairwise (· < ·)) :
    ∀ (r : List Nat) (oi ni : Nat),
      List.Chain' (lisRel (ms.map (fun m => m.2))) r →
      (∀ x ∈ r, x < ms.length) →
      (∀ a, r.head? = some a → oi ≤ (ms.getD a (0, 0)).1 ∧ ni ≤ (ms.getD a (0, 0)).2) →
      AlignOK old new oi ni (r.map (fun idx => ms.getD idx (0, 0))) := by
  have hfst : ∀ x y, x < y → y < ms.length →
      (ms.getD x (0, 0)).1 < (ms.getD y (0, 0)).1 := by
    intro x y hxy hy
    have hx : x < ms.length := by omega
    have := List.pairwise_iff_getElem.mp hsorted x y (by simpa using hx)
      (by simpa using hy) hxy
    rw [List.getElem_map, List.getElem_map] at this
    rwa [List.getD_eq_getElem ms (0, 0) hx, List.getD_eq_getElem ms (0, 0) hy]
  have hsnd : ∀ x, x < ms.length →
      (ms.map (fun m => m.2)).getD x 0 = (ms.getD x (0, 0)).2 := by
    intro x hx
    rw [List.getD_eq_getElem _ 0 (by simpa using hx), List.getElem_map,
      List.getD_eq_getElem ms (0, 0) hx]
  intro r
  induction r with
  | nil => intro oi ni _ _ _; trivial
  | cons a rest ih =>
    intro oi ni hchain hbound hstart
    have halt : a < ms.length := hbound a (by simp)
    have hpmem : ms.getD a (0, 0) ∈ ms := by
      rw [List.getD_eq_getElem ms (0, 0) halt]
      exact List.getElem_mem _
    have hvalid := hmem _ hpmem
    have hst := hstart a rfl
    rw [List.map_cons, alignOK_cons]
    rcases List.chain'_cons'.mp hchain with ⟨hhead, hrest⟩
    refine ⟨hst.1, hst.2, hvalid.1, hvalid.2.1, hvalid.2.2, ?_⟩
    apply ih ((ms.getD a (0, 0)).1 + 1) ((ms.getD a (0, 0)).2 + 1) hrest
      (fun x hx => hbound x (by simp [hx]))
    intro b hb
    rcases rest with _ | ⟨b2, rest2⟩
    · cases hb
    · have hb2 : b2 = b := by simpa using hb
      subst hb2
      have hrel := hhead b2 (by simp)
      have hblt : b2 < ms.length := hbound b2 (by simp)
      constructor
      · have := hfst a b2 hrel.1 hblt
        omega
      · have h2 := hrel.2
        rw [hsnd a halt, hsnd b2 hblt] at h2
        omega

theorem computeLCSPatience_alignOK (old new : List Line) :
    AlignOK old new 0 0 (computeLCSPatience old new) := by
  unfold computeLCSPatience
  apply alignOK_of_chain old new (patienceMatches old new)
    (patienceMatches_mem old new) (patienceMatches_fst_sorted old new)
    (computeLIS _) 0 0 (computeLIS_spec _).1
  · intro x hx
    have := (computeLIS_spec _).2 x hx
    rwa [List.length_map] at this
  · intro a _
    exact ⟨Nat.zero_le _, Nat.zero_le _⟩

theorem computeLCS_alignOK (old new : List Line) :
    AlignOK old new 0 0 (computeLCS old new) := by
  unfold computeLCS
  split
  · exact computeLCSPatience_alignOK old new
  · exact computeLCSDP_alignOK old new

/-! ## Claim C1: prefix chains and the walk invariant -/

/-- A valid prefix chain of flushed hunks from positions `(oPos, nPos)`,
ending at the synchronized positions `(oEnd, nEnd)`. -/
def ChainUpTo (old new : List Line) : Nat → Nat → List DiffHunk → Nat → Nat → Prop
  | oPos, nPos, [], oEnd, nEnd => oEnd = oPos ∧ nEnd = nPos
  | oPos, nPos, h :: hs, oEnd, nEnd =>
      HunkFits old new oPos nPos h ∧
      ChainUpTo old new (h.oldStart - 1 + h.oldLines) (h.newStart - 1 + h.newLines)
        hs oEnd nEnd

theorem chainUpTo_snoc (old new : List Line) (hs : List DiffHunk) (h : DiffHunk) :
    ∀ oPos nPos oEnd nEnd, ChainUpTo old new oPos nPos hs oEnd nEnd →
    HunkFits old new oEnd nEnd h →
    ChainUpTo old new oPos nPos (hs ++ [h])
      (h.oldStart - 1 + h.oldLines) (h.newStart - 1 + h.newLines) := by
  induction hs with
  | nil =>
    intro oPos nPos oEnd nEnd hchain hfit
    obtain ⟨h1, h2⟩ := hchain
    subst h1
    subst h2
    exact ⟨hfit, rfl, rfl⟩
  | cons x xs ih =>
    intro oPos nPos oEnd nEnd hchain hfit
    obtain ⟨hx, hrest⟩ := hchain
    exact ⟨hx, ih _ _ _ _ hrest hfit⟩

theorem chainUpTo_chainFrom (old new : List Line) (hs : List DiffHunk) :
    ∀ oPos nPos oEnd nEnd, ChainUpTo old new oPos nPos hs oEnd nEnd →
    old.drop oEnd = new.drop nEnd →
    ChainFrom old new oPos nPos hs := by
  induction hs with
  | nil =>
    intro oPos nPos oEnd nEnd hchain hdrop
    obtain ⟨h1, h2⟩ := hchain
    subst h1
    subst h2
    exact hdrop
  | cons x xs ih =>
    intro oPos nPos oEnd nEnd hchain hdrop
    obtain ⟨hx, hrest⟩ := hchain
    exact ⟨hx, ih _ _ _ _ hrest hdrop⟩

/-- Between the end of the flushed chain and the walk position there is
only an equal unpatched gap. -/
def GapInv (old new : List Line) (oEnd nEnd oldIdx newIdx : Nat) : Prop :=
  oEnd ≤ oldIdx ∧ nEnd ≤ newIdx ∧ oldIdx - oEnd = newIdx - nEnd ∧
  segOf old oEnd oldIdx = segOf new nEnd newIdx ∧
  oldIdx ≤ old.length ∧ newIdx ≤ new.length

/-- The open hunk accounts for the walk positions: an equal gap up to its
0-indexed starts `oS`/`nS`, consistent counters, and a body reading exactly
the covered old and new segments up to the current positions. -/
def CurInv (old new : List Line) (oEnd nEnd oldIdx newIdx : Nat)
    (hk : DiffHunk) : Prop :=
  ∃ oS nS, hk.oldStart = oS + 1 ∧ hk.newStart = nS + 1 ∧
    oEnd ≤ oS ∧ nEnd ≤ nS ∧ oS - oEnd = nS - nEnd ∧
    segOf old oEnd oS = segOf new nEnd nS ∧
    hk.oldLines = oldCount hk.lines ∧ hk.newLines = newCount hk.lines ∧
    oS + hk.oldLines = oldIdx ∧ nS + hk.newLines = newIdx ∧
    bodyOldLines hk.lines = segOf old oS oldIdx ∧
    bodyNewLines hk.lines = segOf new nS newIdx ∧
    oldIdx ≤ old.length ∧ newIdx ≤ new.length

/-- The full invariant of the hunk walk at positions `(oldIdx, newIdx)`. -/
def WalkInv (old new : List Line) (oldIdx newIdx : Nat) (st : HunkState) : Prop :=
  ∃ oEnd nEnd, ChainUpTo old new 0 0 st.hunks oEnd nEnd ∧
    match st.currentHunk with
    | none => GapInv old new oEnd nEnd oldIdx newIdx
    | some hk => CurInv old new oEnd nEnd oldIdx newIdx hk

theorem curInv_hunkFits (old new : List Line) (oEnd nEnd oldIdx newIdx : Nat)
    (hk : DiffHunk) (h : CurInv old new oEnd nEnd oldIdx newIdx hk) :
    HunkFits old new oEnd nEnd hk ∧
    hk.oldStart - 1 + hk.oldLines = oldIdx ∧
    hk.newStart - 1 + hk.newLines = newIdx := by
  obtain ⟨oS, nS, e1, e2, c3, c4, c5, c6, c7, c8, c9, c10, c11, c12, c13, c14⟩ := h
  have ho : hk.oldStart - 1 = oS := by omega
  have hn : hk.newStart - 1 = nS := by omega
  unfold HunkFits
  rw [ho, hn]
  refine ⟨⟨by omega, by omega, c3, c4, c5, c6, c7, c8, ?_, ?_, by omega, by omega⟩,
    by omega, by omega⟩
  · rw [show oS + hk.oldLines = oldIdx from c9]
    exact c11
  · rw [show nS + hk.newLines = newIdx from c10]
    exact c12

/-! ## Claim C1: bookkeeping for hunk bodies -/

theorem bodyOldLines_append_one (l : List DiffLine) (x : DiffLine) :
    bodyOldLines (l ++ [x]) =
      bodyOldLines l ++ if x.type = DiffLineType.add then [] else [x.content] := by
  by_cases hx : x.type = DiffLineType.add <;>
    simp [bodyOldLines, List.filter_append, hx]

theorem bodyNewLines_append_one (l : List DiffLine) (x : DiffLine) :
    bodyNewLines (l ++ [x]) =
      bodyNewLines l ++ if x.type = DiffLineType.remove then [] else [x.content] := by
  by_cases hx : x.type = DiffLineType.remove <;>
    simp [bodyNewLines, List.filter_append, hx]

theorem oldCount_append_one (l : List DiffLine) (x : DiffLine) :
    oldCount (l ++ [x]) =
      oldCount l + if x.type = DiffLineType.add then 0 else 1 := by
  by_cases hx : x.type = DiffLineType.add <;>
    simp [oldCount, List.filter_append, hx]

theorem newCount_append_one (l : List DiffLine) (x : DiffLine) :
    newCount (l ++ [x]) =
      newCount l + if x.type = DiffLineType.remove then 0 else 1 := by
  by_cases hx : x.type = DiffLineType.remove <;>
    simp [newCount, List.filter_append, hx]

theorem body_all_unchanged (l : List DiffLine)
    (h : ∀ x ∈ l, x.type = DiffLineType.unchanged) :
    bodyOldLines l = l.map (fun x => x.content) ∧
    bodyNewLines l = l.map (fun x => x.content) ∧
    oldCount l = l.length ∧ newCount l = l.length := by
  induction l with
  | nil => simp [bodyOldLines, bodyNewLines, oldCount, newCount]
  | cons x xs ih =>
    have hx := h x (by simp)
    obtain ⟨i1, i2, i3, i4⟩ := ih (fun y hy => h y (by simp [hy]))
    refine ⟨?_, ?_, ?_, ?_⟩
    · simp [bodyOldLines, List.filter_cons, hx] at i1 ⊢
      exact i1
    · simp [bodyNewLines, List.filter_cons, hx] at i2 ⊢
      exact i2
    · simp [oldCount, List.filter_cons, hx] at i3 ⊢
      exact i3
    · simp [newCount, List.filter_cons, hx] at i4 ⊢
      exact i4

theorem dropLast_append_getLastD (l : List DiffLine) (h : l ≠ []) :
    l.dropLast ++ [l.getLastD default] = l := by
  rcases hrev : l.reverse with _ | ⟨x, xs⟩
  · have : l = [] := by simpa using congrArg List.reverse hrev
    exact absurd this h
  · have hl : l = xs.reverse ++ [x] := by simpa using congrArg List.reverse hrev
    rw [hl]
    simp

theorem append_singleton_inj {l1 l2 : List Line} {a b : Line}
    (h : l1 ++ [a] = l2 ++ [b]) : l1 = l2 ∧ a = b := by
  have hr := congrArg List.reverse h
  simp only [List.reverse_append, List.reverse_singleton,
    List.singleton_append] at hr
  injection hr with h1 h2
  exact ⟨List.reverse_inj.mp h2, h1⟩

theorem segOf_single (l : List Line) (a : Nat) (ha : a < l.length) :
    segOf l a (a + 1) = [l.getD a []] := by
  rw [segOf_cons l a (a + 1) (by omega) ha, segOf_self]

theorem trimHunk_all_unchanged (hk : DiffHunk)
    (h : ∀ x ∈ (trimHunk hk).lines, x.type = DiffLineType.unchanged) :
    ∀ x ∈ hk.lines, x.type = DiffLineType.unchanged := by
  induction hk using trimHunk.induct with
  | case1 hk hcond ih =>
    rw [trimHunk, if_pos hcond] at h
    have hd := ih h
    intro x hx
    rw [← dropLast_append_getLastD hk.lines hcond.1] at hx
    rcases List.mem_append.mp hx with hx | hx
    · exact hd x hx
    · rw [List.mem_singleton.mp hx]
      exact hcond.2.1
  | case2 hk hcond =>
    rw [trimHunk, if_neg hcond] at h
    exact h

/-! ## Claim C1: trimming preserves the open-hunk invariant -/

theorem trimHunk_curInv (old new : List Line) (oEnd nEnd : Nat) :
    ∀ (hk : DiffHunk), ∀ (oldIdx newIdx : Nat),
    CurInv old new oEnd nEnd oldIdx newIdx hk →
    ∃ oldIdx' newIdx',
      CurInv old new oEnd nEnd oldIdx' newIdx' (trimHunk hk) ∧
      GapInv old new oldIdx' newIdx' oldIdx newIdx := by
  intro hk
  induction hk using trimHunk.induct with
  | case1 hk hcond ih =>
    intro oldIdx newIdx hcur
    rw [trimHunk, if_pos hcond]
    obtain ⟨oS, nS, e1, e2, c3, c4, c5, c6, c7, c8, c9, c10, c11, c12, c13, c14⟩ :=
      hcur
    have hsplit : hk.lines.dropLast ++ [hk.lines.getLastD default] = hk.lines :=
      dropLast_append_getLastD hk.lines hcond.1
    have hut : (hk.lines.getLastD default).type = DiffLineType.unchanged :=
      hcond.2.1
    have hutA : ¬ (hk.lines.getLastD default).type = DiffLineType.add := by
      rw [hut]
      decide
    have hutR : ¬ (hk.lines.getLastD default).type = DiffLineType.remove := by
      rw [hut]
      decide
    have hoc : oldCount hk.lines = oldCount hk.lines.dropLast + 1 := by
      conv_lhs => rw [← hsplit]
      rw [oldCount_append_one, if_neg hutA]
    have hnc : newCount hk.lines = newCount hk.lines.dropLast + 1 := by
      conv_lhs => rw [← hsplit]
      rw [newCount_append_one, if_neg hutR]
    have hbo : bodyOldLines hk.lines =
        bodyOldLines hk.lines.dropLast ++ [(hk.lines.getLastD default).content] := by
      conv_lhs => rw [← hsplit]
      rw [bodyOldLines_append_one, if_neg hutA]
    have hbn : bodyNewLines hk.lines =
        bodyNewLines hk.lines.dropLast ++ [(hk.lines.getLastD default).content] := by
      conv_lhs => rw [← hsplit]
      rw [bodyNewLines_append_one, if_neg hutR]
    have holdpos : 1 ≤ hk.oldLines := by omega
    have hnewpos : 1 ≤ hk.newLines := by omega
    have hio : oS + 1 ≤ oldIdx := by omega
    have hin : nS + 1 ≤ newIdx := by omega
    have hsegO : segOf old oS oldIdx =
        segOf old oS (oldIdx - 1) ++ [old.getD (oldIdx - 1) []] := by
      have h' := segOf_snoc old oS (oldIdx - 1) (by omega) (by omega)
      rw [show oldIdx - 1 + 1 = oldIdx from by omega] at h'
      exact h'.symm
    have hsegN : segOf new nS newIdx =
        segOf new nS (newIdx - 1) ++ [new.getD (newIdx - 1) []] := by
      have h' := segOf_snoc new nS (newIdx - 1) (by omega) (by omega)
      rw [show newIdx - 1 + 1 = newIdx from by omega] at h'
      exact h'.symm
    have hdecO := append_singleton_inj (hbo.symm.trans (c11.trans hsegO))
    have hdecN := append_singleton_inj (hbn.symm.trans (c12.trans hsegN))
    have hcur1 : CurInv old new oEnd nEnd (oldIdx - 1) (newIdx - 1)
        { hk with lines := hk.lines.dropLast
                  oldLines := hk.oldLines - 1
                  newLines := hk.newLines - 1 } := by
      refine ⟨oS, nS, e1, e2, c3, c4, c5, c6, by simp only []; omega,
        by simp only []; omega, by simp only []; omega, by simp only []; omega,
        hdecO.1, hdecN.1, by omega, by omega⟩
    obtain ⟨oi, ni, hcur2, hgap2⟩ := ih (oldIdx - 1) (newIdx - 1) hcur1
    obtain ⟨p1, p2, p3, p4, p5, p6⟩ := hgap2
    refine ⟨oi, ni, hcur2, by omega, by omega, by omega, ?_, c13, c14⟩
    have hsingO : segOf old (oldIdx - 1) oldIdx = [old.getD (oldIdx - 1) []] := by
      have h' := segOf_single old (oldIdx - 1) (by omega)
      rw [show oldIdx - 1 + 1 = oldIdx from by omega] at h'
      exact h'
    have hsingN : segOf new (newIdx - 1) newIdx = [new.getD (newIdx - 1) []] := by
      have h' := segOf_single new (newIdx - 1) (by omega)
      rw [show newIdx - 1 + 1 = newIdx from by omega] at h'
      exact h'
    rw [← segOf_append_segOf old oi (oldIdx - 1) oldIdx p1 (by omega),
      ← segOf_append_segOf new ni (newIdx - 1) newIdx p2 (by omega),
      p4, hsingO, hsingN, ← hdecO.2, ← hdecN.2]
  | case2 hk hcond =>
    intro oldIdx newIdx hcur
    rw [trimHunk, if_neg hcond]
    obtain ⟨oS, nS, e1, e2, c3, c4, c5, c6, c7, c8, c9, c10, c11, c12, c13, c14⟩ :=
      hcur
    exact ⟨oldIdx, newIdx,
      ⟨oS, nS, e1, e2, c3, c4, c5, c6, c7, c8, c9, c10, c11, c12, c13, c14⟩,
      by omega, by omega, by omega, by rw [segOf_self, segOf_self], c13, c14⟩

/-! ## Claim C1: flushing preserves the walk invariant -/

theorem flushHunk_walkInv (old new : List Line) (oldIdx newIdx : Nat)
    (st : HunkState) (hinv : WalkInv old new oldIdx newIdx st) :
    WalkInv old new oldIdx newIdx (flushHunk st) ∧
    (flushHunk st).currentHunk = none := by
  obtain ⟨oEnd, nEnd, hchain, hcur⟩ := hinv
  rcases hst : st.currentHunk with _ | hk
  · rw [flushHunk_none st hst]
    rw [hst] at hcur
    refine ⟨⟨oEnd, nEnd, hchain, ?_⟩, hst⟩
    rw [hst]
    exact hcur
  · rw [hst] at hcur
    rw [flushHunk_some st hk hst]
    by_cases hnil : hk.lines = []
    · rw [if_pos hnil]
      obtain ⟨oS, nS, e1, e2, c3, c4, c5, c6, c7, c8, c9, c10, c11, c12, c13,
        c14⟩ := hcur
      have ho0 : hk.oldLines = 0 := by
        rw [c7, hnil]
        rfl
      have hn0 : hk.newLines = 0 := by
        rw [c8, hnil]
        rfl
      have hoS : oldIdx = oS := by omega
      have hnS : newIdx = nS := by omega
      refine ⟨⟨oEnd, nEnd, hchain, by omega, by omega, by omega, ?_, c13, c14⟩, rfl⟩
      rw [hoS, hnS]
      exact c6
    · rw [if_neg hnil]
      obtain ⟨oi, ni, hcur2, hgap2⟩ :=
        trimHunk_curInv old new oEnd nEnd hk oldIdx newIdx hcur
      simp only []
      split
      · have hfits := curInv_hunkFits old new oEnd nEnd oi ni (trimHunk hk) hcur2
        refine ⟨⟨oi, ni, ?_, hgap2⟩, trivial⟩
        have hch := chainUpTo_snoc old new st.hunks (trimHunk hk) 0 0 oEnd nEnd
          hchain hfits.1
        rw [hfits.2.1, hfits.2.2] at hch
        exact hch
      · rename_i hany
        have hall' : ∀ x ∈ (trimHunk hk).lines, x.type = DiffLineType.unchanged := by
          intro x hx
          by_contra hc
          exact hany (List.any_eq_true.mpr ⟨x, hx, by simpa using hc⟩)
        have hall := trimHunk_all_unchanged hk hall'
        obtain ⟨hbo, hbn, hoc, hnc⟩ := body_all_unchanged hk.lines hall
        obtain ⟨oS, nS, e1, e2, c3, c4, c5, c6, c7, c8, c9, c10, c11, c12, c13,
          c14⟩ := hcur
        have hsegeq : segOf old oS oldIdx = segOf new nS newIdx := by
          rw [← c11, ← c12, hbo, hbn]
        have hlen : hk.oldLines = hk.newLines := by
          rw [c7, c8, hoc, hnc]
        refine ⟨⟨oEnd, nEnd, hchain, by omega, by omega, by omega, ?_, c13, c14⟩,
          trivial⟩
        rw [← segOf_append_segOf old oEnd oS oldIdx c3 (by omega),
          ← segOf_append_segOf new nEnd nS newIdx c4 (by omega), c6, hsegeq]

/-! ## Claim C1: pushing lines preserves the walk invariant -/

theorem walkInv_remove (old new : List Line) (i n : Nat) (st : HunkState)
    (hinv : WalkInv old new i n st) (hi : i < old.length) :
    WalkInv old new (i + 1) n
      (pushLine (ensureHunk st i n) (removeLine old i) 1 0) := by
  obtain ⟨oEnd, nEnd, hchain, hcur⟩ := hinv
  rcases hst : st.currentHunk with _ | hk
  · rw [hst] at hcur
    obtain ⟨g1, g2, g3, g4, g5, g6⟩ := hcur
    simp only [ensureHunk, pushLine, hst]
    refine ⟨oEnd, nEnd, hchain, ?_⟩
    refine ⟨i, n, rfl, rfl, g1, g2, g3, g4, ?_, ?_, ?_, ?_, ?_, ?_, by omega, g6⟩
    · simp [oldCount, removeLine]
    · simp [newCount, removeLine]
    · simp [oldCount, removeLine]
    · simp [newCount, removeLine]
    · show bodyOldLines [removeLine old i] = segOf old i (i + 1)
      rw [segOf_single old i hi]
      simp [bodyOldLines, removeLine]
    · show bodyNewLines [removeLine old i] = segOf new n n
      rw [segOf_self]
      simp [bodyNewLines, removeLine]
  · rw [hst] at hcur
    obtain ⟨oS, nS, e1, e2, c3, c4, c5, c6, c7, c8, c9, c10, c11, c12, c13,
      c14⟩ := hcur
    simp only [ensureHunk, pushLine, hst]
    refine ⟨oEnd, nEnd, hchain, ?_⟩
    refine ⟨oS, nS, e1, e2, c3, c4, c5, c6, ?_, ?_, ?_, ?_, ?_, ?_, by omega, c14⟩
    · show hk.oldLines + 1 = oldCount (hk.lines ++ [removeLine old i])
      rw [oldCount_append_one]
      simp [removeLine, c7]
    · show hk.newLines + 0 = newCount (hk.lines ++ [removeLine old i])
      rw [newCount_append_one]
      simp [removeLine, c8]
    · show oS + (hk.oldLines + 1) = i + 1
      omega
    · show nS + (hk.newLines + 0) = n
      omega
    · show bodyOldLines (hk.lines ++ [removeLine old i]) = segOf old oS (i + 1)
      rw [bodyOldLines_append_one]
      simp only [removeLine]
      rw [if_neg (by decide)]
      rw [c11, ← segOf_snoc old oS i (by omega) hi]
    · show bodyNewLines (hk.lines ++ [removeLine old i]) = segOf new nS n
      rw [bodyNewLines_append_one]
      simp only [removeLine]
      rw [if_pos (by decide)]
      rw [c12, List.append_nil]

theorem walkInv_add (old new : List Line) (i j : Nat) (st : HunkState)
    (hinv : WalkInv old new i j st) (hj : j < new.length) :
    WalkInv old new i (j + 1)
      (pushLine (ensureHunk st i j) (addLine new j) 0 1) := by
  obtain ⟨oEnd, nEnd, hchain, hcur⟩ := hinv
  rcases hst : st.currentHunk with _ | hk
  · rw [hst] at hcur
    obtain ⟨g1, g2, g3, g4, g5, g6⟩ := hcur
    simp only [ensureHunk, pushLine, hst]
    refine ⟨oEnd, nEnd, hchain, ?_⟩
    refine ⟨i, j, rfl, rfl, g1, g2, g3, g4, ?_, ?_, ?_, ?_, ?_, ?_, g5, by omega⟩
    · simp [oldCount, addLine]
    · simp [newCount, addLine]
    · simp [oldCount, addLine]
    · simp [newCount, addLine]
    · show bodyOldLines [addLine new j] = segOf old i i
      rw [segOf_self]
      simp [bodyOldLines, addLine]
    · show bodyNewLines [addLine new j] = segOf new j (j + 1)
      rw [segOf_single new j hj]
      simp [bodyNewLines, addLine]
  · rw [hst] at hcur
    obtain ⟨oS, nS, e1, e2, c3, c4, c5, c6, c7, c8, c9, c10, c11, c12, c13,
      c14⟩ := hcur
    simp only [ensureHunk, pushLine, hst]
    refine ⟨oEnd, nEnd, hchain, ?_⟩
    refine ⟨oS, nS, e1, e2, c3, c4, c5, c6, ?_, ?_, ?_, ?_, ?_, ?_, c13, by omega⟩
    · show hk.oldLines + 0 = oldCount (hk.lines ++ [addLine new j])
      rw [oldCount_append_one]
      simp [addLine, c7]
    · show hk.newLines + 1 = newCount (hk.lines ++ [addLine new j])
      rw [newCount_append_one]
      simp [addLine, c8]
    · show oS + (hk.oldLines + 0) = i
      omega
    · show nS + (hk.newLines + 1) = j + 1
      omega
    · show bodyOldLines (hk.lines ++ [addLine new j]) = segOf old oS i
      rw [bodyOldLines_append_one]
      simp only [addLine]
      rw [if_pos (by decide)]
      rw [c11, List.append_nil]
    · show bodyNewLines (hk.lines ++ [addLine new j]) = segOf new nS (j + 1)
      rw [bodyNewLines_append_one]
      simp only [addLine]
      rw [if_neg (by decide)]
      rw [c12, ← segOf_snoc new nS j (by omega) hj]

theorem pushCommon_walkInv (old new : List Line) (st : HunkState) (i j : Nat)
    (hinv : WalkInv old new i j st) (hi : i < old.length) (hj : j < new.length)
    (heq : old.getD i [] = new.getD j []) :
    WalkInv old new (i + 1) (j + 1) (pushCommon old st i j) := by
  obtain ⟨oEnd, nEnd, hchain, hcur⟩ := hinv
  rcases hst : st.currentHunk with _ | hk
  · have hpc : pushCommon old st i j = st := by
      simp [pushCommon, hst]
    rw [hpc]
    rw [hst] at hcur
    obtain ⟨g1, g2, g3, g4, g5, g6⟩ := hcur
    refine ⟨oEnd, nEnd, hchain, ?_⟩
    rw [hst]
    refine ⟨by omega, by omega, by omega, ?_, by omega, by omega⟩
    rw [← segOf_snoc old oEnd i g1 hi, ← segOf_snoc new nEnd j g2 hj, g4, heq]
  · rw [hst] at hcur
    obtain ⟨oS, nS, e1, e2, c3, c4, c5, c6, c7, c8, c9, c10, c11, c12, c13,
      c14⟩ := hcur
    have hinv' : WalkInv old new (i + 1) (j + 1)
        ⟨some { oldStart := hk.oldStart, oldLines := hk.oldLines + 1,
                newStart := hk.newStart, newLines := hk.newLines + 1,
                lines := hk.lines ++
                  [{ type := DiffLineType.unchanged, content := old.getD i [],
                     oldLineNumber := some (i + 1),
                     newLineNumber := some (j + 1) }] }, st.hunks⟩ := by
      refine ⟨oEnd, nEnd, hchain, ?_⟩
      refine ⟨oS, nS, e1, e2, c3, c4, c5, c6, ?_, ?_, ?_, ?_, ?_, ?_,
        by omega, by omega⟩
      · show hk.oldLines + 1 = oldCount (hk.lines ++ [_])
        rw [oldCount_append_one, if_neg (by simp)]
        omega
      · show hk.newLines + 1 = newCount (hk.lines ++ [_])
        rw [newCount_append_one, if_neg (by simp)]
        omega
      · show oS + (hk.oldLines + 1) = i + 1
        omega
      · show nS + (hk.newLines + 1) = j + 1
        omega
      · show bodyOldLines (hk.lines ++ [_]) = segOf old oS (i + 1)
        rw [bodyOldLines_append_one, if_neg (by simp), c11,
          ← segOf_snoc old oS i (by omega) hi]
      · show bodyNewLines (hk.lines ++ [_]) = segOf new nS (j + 1)
        rw [bodyNewLines_append_one, if_neg (by simp)]
        show bodyNewLines hk.lines ++ [old.getD i []] = segOf new nS (j + 1)
        rw [heq, c12, ← segOf_snoc new nS j (by omega) hj]
    simp only [pushCommon, hst]
    split
    · exact (flushHunk_walkInv old new (i + 1) (j + 1) _ hinv').1
    · exact hinv'

/-! ## Claim C1: the batched loops preserve the walk invariant -/

theorem pushRemoves_walkInv_aux (old new : List Line) (n : Nat) :
    ∀ (cnt i : Nat) (st : HunkState), WalkInv old new i n st →
    i + cnt ≤ old.length →
    WalkInv old new (i + cnt) n
      ((List.range' i cnt).foldl
        (fun st k => pushLine (ensureHunk st k n) (removeLine old k) 1 0) st) := by
  intro cnt
  induction cnt with
  | zero =>
    intro i st h _
    simpa using h
  | succ c ih =>
    intro i st h hle
    rw [List.range'_succ, List.foldl_cons]
    have h1 := walkInv_remove old new i n st h (by omega)
    have h2 := ih (i + 1) _ h1 (by omega)
    rw [show i + (c + 1) = (i + 1) + c from by omega]
    exact h2

theorem pushRemoves_walkInv (old new : List Line) (st : HunkState)
    (oldIdx target n : Nat) (h : WalkInv old new oldIdx n st)
    (h1 : oldIdx ≤ target) (h2 : target ≤ old.length) :
    WalkInv old new target n (pushRemoves old st oldIdx target n) := by
  have h3 := pushRemoves_walkInv_aux old new n (target - oldIdx) oldIdx st h
    (by omega)
  rw [show oldIdx + (target - oldIdx) = target from by omega] at h3
  rw [pushRemoves]
  exact h3

theorem pushAdds_walkInv_aux (old new : List Line) (i : Nat) :
    ∀ (cnt j : Nat) (st : HunkState), WalkInv old new i j st →
    j + cnt ≤ new.length →
    WalkInv old new i (j + cnt)
      ((List.range' j cnt).foldl
        (fun st k => pushLine (ensureHunk st i k) (addLine new k) 0 1) st) := by
  intro cnt
  induction cnt with
  | zero =>
    intro j st h _
    simpa using h
  | succ c ih =>
    intro j st h hle
    rw [List.range'_succ, List.foldl_cons]
    have h1 := walkInv_add old new i j st h (by omega)
    have h2 := ih (j + 1) _ h1 (by omega)
    rw [show j + (c + 1) = (j + 1) + c from by omega]
    exact h2

theorem pushAdds_walkInv (old new : List Line) (st : HunkState)
    (oldIdx newIdx target : Nat) (h : WalkInv old new oldIdx newIdx st)
    (h1 : newIdx ≤ target) (h2 : target ≤ new.length) :
    WalkInv old new oldIdx target (pushAdds new st oldIdx newIdx target) := by
  have h3 := pushAdds_walkInv_aux old new oldIdx (target - newIdx) newIdx st h
    (by omega)
  rw [show newIdx + (target - newIdx) = target from by omega] at h3
  rw [pushAdds]
  exact h3

theorem walkInv_bounds (old new : List Line) (oldIdx newIdx : Nat)
    (st : HunkState) (h : WalkInv old new oldIdx newIdx st) :
    oldIdx ≤ old.length ∧ newIdx ≤ new.length := by
  obtain ⟨oEnd, nEnd, _, hcur⟩ := h
  rcases hst : st.currentHunk with _ | hk <;> rw [hst] at hcur
  · exact ⟨hcur.2.2.2.2.1, hcur.2.2.2.2.2⟩
  · obtain ⟨oS, nS, _, _, _, _, _, _, _, _, _, _, _, _, c13, c14⟩ := hcur
    exact ⟨c13, c14⟩

theorem hunkRemainder_walkInv (old new : List Line) (st : HunkState)
    (oldIdx newIdx : Nat) (h : WalkInv old new oldIdx newIdx st) :
    WalkInv old new old.length new.length
      (hunkRemainder old new st oldIdx newIdx) := by
  have hb := walkInv_bounds old new oldIdx newIdx st h
  rw [hunkRemainder]
  have h1 := pushRemoves_walkInv old new st oldIdx old.length newIdx h hb.1
    (le_refl _)
  have hmax : max oldIdx old.length = old.length := by omega
  rw [hmax]
  exact pushAdds_walkInv old new _ old.length newIdx new.length h1 hb.2
    (le_refl _)

/-! ## Claim C1: the main walk preserves the invariant to the end -/

theorem hunkWalk_walkInv (old new : List Line) (oldIdx newIdx : Nat)
    (lcs : List (Nat × Nat)) (st : HunkState) :
    WalkInv old new oldIdx newIdx st →
    AlignOK old new oldIdx newIdx lcs →
    WalkInv old new old.length new.length
      (hunkWalk old new oldIdx newIdx lcs st) := by
  induction oldIdx, newIdx, lcs, st using hunkWalk.induct old new with
  | case1 oldIdx newIdx st hcond lcsOld lcsNew lcsRest hin _s1 _o1 _s2 _n1 _s3 ih =>
    intro hinv halign
    rw [hunkWalk_step old new oldIdx newIdx lcsOld lcsNew lcsRest st hcond hin]
    obtain ⟨a1, a2, a3, a4, a5, a6⟩ := halign
    have hmaxO : max oldIdx lcsOld = lcsOld := by omega
    have hmaxN : max newIdx lcsNew = lcsNew := by omega
    rw [hmaxO, hmaxN]
    have ih2 : WalkInv old new (max oldIdx lcsOld + 1) (max newIdx lcsNew + 1)
        (pushCommon old
          (pushAdds new (pushRemoves old st oldIdx lcsOld newIdx)
            (max oldIdx lcsOld) newIdx lcsNew)
          (max oldIdx lcsOld) (max newIdx lcsNew)) →
        AlignOK old new (max oldIdx lcsOld + 1) (max newIdx lcsNew + 1)
          lcsRest →
        WalkInv old new old.length new.length
          (hunkWalk old new (max oldIdx lcsOld + 1) (max newIdx lcsNew + 1)
            lcsRest
            (pushCommon old
              (pushAdds new (pushRemoves old st oldIdx lcsOld newIdx)
                (max oldIdx lcsOld) newIdx lcsNew)
              (max oldIdx lcsOld) (max newIdx lcsNew))) := ih
    rw [hmaxO, hmaxN] at ih2
    have h1 := pushRemoves_walkInv old new st oldIdx lcsOld newIdx hinv a1
      (by omega)
    have h2 := pushAdds_walkInv old new _ lcsOld newIdx lcsNew h1 a2 (by omega)
    have h3 := pushCommon_walkInv old new _ lcsOld lcsNew h2 a3 a4 a5
    exact ih2 h3 a6
  | case2 oldIdx newIdx st hcond lcsOld lcsNew lcsRest hin =>
    intro hinv halign
    rw [hunkWalk_cons_rem old new oldIdx newIdx lcsOld lcsNew lcsRest st hcond
      hin]
    exact hunkRemainder_walkInv old new st oldIdx newIdx hinv
  | case3 oldIdx newIdx st hcond =>
    intro hinv halign
    rw [hunkWalk_nil old new oldIdx newIdx st hcond]
    exact hunkRemainder_walkInv old new st oldIdx newIdx hinv
  | case4 oldIdx newIdx lcs st hcond =>
    intro hinv halign
    rw [hunkWalk_done old new oldIdx newIdx lcs st hcond]
    have hb := walkInv_bounds old new oldIdx newIdx st hinv
    push_neg at hcond
    have ho : oldIdx = old.length := by omega
    have hn : newIdx = new.length := by omega
    rw [← ho, ← hn]
    exact hinv

/-- The hunks computed by `computeHunks` form a semantically valid chain
against the old and new line lists. -/
theorem computeHunks_chainFrom (old new : List Line) :
    ChainFrom old new 0 0 (computeHunks old new) := by
  have hinv0 : WalkInv old new 0 0 ⟨none, []⟩ := by
    refine ⟨0, 0, ⟨rfl, rfl⟩, ?_⟩
    exact ⟨le_refl 0, le_refl 0, rfl, rfl, by omega, by omega⟩
  have hW := hunkWalk_walkInv old new 0 0 (computeLCS old new) ⟨none, []⟩ hinv0
    (computeLCS_alignOK old new)
  obtain ⟨hF, hnone⟩ := flushHunk_walkInv old new old.length new.length _ hW
  obtain ⟨oEnd, nEnd, hchain, hcur⟩ := hF
  rw [hnone] at hcur
  simp only [computeHunks]
  apply chainUpTo_chainFrom old new _ 0 0 oEnd nEnd hchain
  obtain ⟨g1, g2, g3, g4, g5, g6⟩ := hcur
  rw [drop_eq_segOf_append old oEnd old.length g1,
    drop_eq_segOf_append new nEnd new.length g2,
    List.drop_length, List.drop_length, g4]

/-! ## Claim C1: contents and counts of chained hunks -/

theorem content_mem_bodyOld (lines : List DiffLine) (l : DiffLine)
    (hl : l ∈ lines) (ht : l.type ≠ DiffLineType.add) :
    l.content ∈ bodyOldLines lines :=
  List.mem_map_of_mem _ (List.mem_filter.mpr ⟨hl, by simpa using ht⟩)

theorem content_mem_bodyNew (lines : List DiffLine) (l : DiffLine)
    (hl : l ∈ lines) (ht : l.type ≠ DiffLineType.remove) :
    l.content ∈ bodyNewLines lines :=
  List.mem_map_of_mem _ (List.mem_filter.mpr ⟨hl, by simpa using ht⟩)

theorem chainFrom_counts (old new : List Line) (hs : List DiffHunk) :
    ∀ (oPos nPos : Nat), ChainFrom old new oPos nPos hs →
    ∀ h ∈ hs, h.oldLines = oldCount h.lines ∧ h.newLines = newCount h.lines := by
  induction hs with
  | nil =>
    intro _ _ _ h hm
    simp at hm
  | cons x xs ih =>
    intro oPos nPos hchain h hm
    obtain ⟨hfit, hrest⟩ := hchain
    rcases List.mem_cons.mp hm with hm | hm
    · subst hm
      obtain ⟨f1, f2, f3, f4, f5, f6, f7, f8, f9, f10, f11, f12⟩ := hfit
      exact ⟨f7, f8⟩
    · exact ih _ _ hrest h hm

theorem chainFrom_content (old new : List Line) (hs : List DiffHunk) :
    ∀ (oPos nPos : Nat), ChainFrom old new oPos nPos hs →
    ∀ h ∈ hs, ∀ l ∈ h.lines, l.content ∈ old ∨ l.content ∈ new := by
  induction hs with
  | nil =>
    intro _ _ _ h hm
    simp at hm
  | cons x xs ih =>
    intro oPos nPos hchain h hm l hl
    obtain ⟨hfit, hrest⟩ := hchain
    rcases List.mem_cons.mp hm with hm | hm
    · subst hm
      obtain ⟨f1, f2, f3, f4, f5, f6, f7, f8, f9, f10, f11, f12⟩ := hfit
      by_cases ht : l.type = DiffLineType.add
      · right
        have hmem : l.content ∈ bodyNewLines h.lines :=
          content_mem_bodyNew h.lines l hl (by simp [ht])
        rw [f10] at hmem
        exact mem_segOf new _ _ _ hmem
      · left
        have hmem : l.content ∈ bodyOldLines h.lines :=
          content_mem_bodyOld h.lines l hl ht
        rw [f9] at hmem
        exact mem_segOf old _ _ _ hmem
    · exact ih _ _ hrest h hm l hl

/-! ## Claim C1: no rendered line contains a newline -/

theorem hunkHeader_no_newline (h : DiffHunk) : Char.ofNat 10 ∉ hunkHeader h := by
  intro hmem
  simp only [hunkHeader, List.mem_append] at hmem
  rcases hmem with ((((((((hm | hm) | hm) | hm) | hm) | hm) | hm) | hm) | hm)
  · exact absurd hm (by decide)
  · exact repNat_no_newline _ _ hm rfl
  · exact absurd hm (by decide)
  · exact repNat_no_newline _ _ hm rfl
  · exact absurd hm (by decide)
  · exact repNat_no_newline _ _ hm rfl
  · exact absurd hm (by decide)
  · exact repNat_no_newline _ _ hm rfl
  · exact absurd hm (by decide)

theorem tagChar_ne_newline (t : DiffLineType) : tagChar t ≠ Char.ofNat 10 := by
  cases t <;> decide

theorem rendered_no_newline (old new : List Line) (p : Text)
    (hp : Char.ofNat 10 ∉ p)
    (hold : ∀ l ∈ old, Char.ofNat 10 ∉ l)
    (hnew : ∀ l ∈ new, Char.ofNat 10 ∉ l) :
    ∀ l ∈ (strChars "--- a/" ++ p) :: (strChars "+++ b/" ++ p) ::
      ((computeHunks old new).map hunkRender).flatten,
      Char.ofNat 10 ∉ l := by
  intro l hl
  rcases List.mem_cons.mp hl with hl | hl
  · subst hl
    intro hmem
    rcases List.mem_append.mp hmem with hm | hm
    · exact absurd hm (by decide)
    · exact hp hm
  rcases List.mem_cons.mp hl with hl | hl
  · subst hl
    intro hmem
    rcases List.mem_append.mp hmem with hm | hm
    · exact absurd hm (by decide)
    · exact hp hm
  · rw [List.mem_flatten] at hl
    obtain ⟨block, hblock, hlb⟩ := hl
    rw [List.mem_map] at hblock
    obtain ⟨h, hh, hhr⟩ := hblock
    subst hhr
    rw [hunkRender] at hlb
    rcases List.mem_cons.mp hlb with hlb | hlb
    · subst hlb
      exact hunkHeader_no_newline h
    · rw [List.mem_map] at hlb
      obtain ⟨dl, hdl, hdlr⟩ := hlb
      subst hdlr
      intro hmem
      rcases List.mem_cons.mp hmem with hm | hm
      · exact tagChar_ne_newline dl.type hm.symm
      · have hcm := chainFrom_content old new (computeHunks old new) 0 0
          (computeHunks_chainFrom old new) h hh dl hdl
        rcases hcm with hcm | hcm
        · exact hold dl.content hcm hm
        · exact hnew dl.content hcm hm

/-! ## Claim C1 (amended): the round-trip theorem -/

theorem linesOfContent_no_newline (t : Text) :
    ∀ l ∈ linesOfContent (some t), Char.ofNat 10 ∉ l := by
  simp only [linesOfContent]
  by_cases h0 : t = []
  · simp [h0]
  · rw [if_neg h0]
    exact splitNl_no_newline t

theorem take4_header_old (p : Text) :
    (strChars "--- a/" ++ p).take 4 = strChars "--- " := by
  have e : strChars "--- a/" = strChars "--- " ++ strChars "a/" := by decide
  rw [e, List.append_assoc]
  have hlen : (strChars "--- ").length = 4 := by decide
  rw [← hlen, List.take_left]

theorem take4_header_new (p : Text) :
    (strChars "+++ b/" ++ p).take 4 = strChars "+++ " := by
  have e : strChars "+++ b/" = strChars "+++ " ++ strChars "b/" := by decide
  rw [e, List.append_assoc]
  have hlen : (strChars "+++ ").length = 4 := by decide
  rw [← hlen, List.take_left]

theorem joinNl_linesOfContent (t : Text) :
    joinNl (linesOfContent (some t)) = t := by
  simp only [linesOfContent]
  by_cases h0 : t = []
  · rw [if_pos h0, joinNl_nil, h0]
  · rw [if_neg h0]
    exact joinNl_splitNl t

/-- C1 (amended): for non-binary texts `A`, `B` and a path containing no
newline character, applying the unified-diff text produced by
`formatUnifiedDiff (computeDiff p A B)` as a patch to `A` reproduces `B`
exactly. -/
theorem formatUnifiedDiff_roundtrip (p A B : Text)
    (hA : detectBinary (some A) = false) (hB : detectBinary (some B) = false)
    (hp : Char.ofNat 10 ∉ p) :
    applyPatch A (formatUnifiedDiff (computeDiff p (some A) (some B))) =
      some B := by
  have hformat : formatUnifiedDiff (computeDiff p (some A) (some B)) =
      joinNl ((strChars "--- a/" ++ p) :: (strChars "+++ b/" ++ p) ::
        ((computeHunks (linesOfContent (some A))
          (linesOfContent (some B))).map hunkRender).flatten) := by
    simp [computeDiff, hA, hB, formatUnifiedDiff]
  rw [hformat]
  have hsplit : splitNl (joinNl ((strChars "--- a/" ++ p) ::
      (strChars "+++ b/" ++ p) ::
      ((computeHunks (linesOfContent (some A))
        (linesOfContent (some B))).map hunkRender).flatten)) =
      (strChars "--- a/" ++ p) :: (strChars "+++ b/" ++ p) ::
      ((computeHunks (linesOfContent (some A))
        (linesOfContent (some B))).map hunkRender).flatten :=
    splitNl_joinNl _ (by simp)
      (rendered_no_newline (linesOfContent (some A)) (linesOfContent (some B))
        p hp (linesOfContent_no_newline A) (linesOfContent_no_newline B))
  rw [applyPatch, hsplit]
  simp only []
  rw [if_pos ⟨take4_header_old p, take4_header_new p⟩]
  have hchain := computeHunks_chainFrom (linesOfContent (some A))
    (linesOfContent (some B))
  have hcnt := chainFrom_counts (linesOfContent (some A))
    (linesOfContent (some B)) _ 0 0 hchain
  rw [parseHunks_render _ hcnt]
  simp only []
  rw [applyHunks_chain (linesOfContent (some A)) (linesOfContent (some B)) _
    0 0 hchain]
  simp only [List.drop_zero]
  show some (joinNl (linesOfContent (some B))) = some B
  rw [joinNl_linesOfContent]

/-- C1 counterexample: with a path that contains a newline character the
two file-header lines of the rendered diff are split apart, the patch
misparses, and applying it to `A` does not reproduce `B`. -/
theorem formatUnifiedDiff_roundtrip_newline_cx :
    applyPatch (strChars "a")
      (formatUnifiedDiff
        (computeDiff [Char.ofNat 10] (some (strChars "a"))
          (some (strChars "b")))) ≠ some (strChars "b") := by
  have hnone : applyPatch (strChars "a")
      (formatUnifiedDiff
        (computeDiff [Char.ofNat 10] (some (strChars "a"))
          (some (strChars "b")))) = none := by
    simp [applyPatch, computeDiff, detectBinary, strChars, linesOfContent,
      splitNl, computeHunks, computeLCS, computeLCSDP, lcsBacktrack, lcsDp,
      hunkWalk.eq_def, hunkRemainder, pushRemoves, pushAdds, pushCommon,
      ensureHunk, pushLine, removeLine, addLine, flushHunk, trimHunk.eq_def,
      countTrailingContext, formatUnifiedDiff, joinNl, List.intercalate,
      hunkRender, hunkHeader, repNat, tagChar]
  rw [hnone]
  simp

/-- Witness for the amended C1 round-trip at a concrete non-binary input
with a newline-free path. -/
theorem formatUnifiedDiff_roundtrip_witness :
    detectBinary (some (strChars "a")) = false ∧
    detectBinary (some (strChars "b")) = false ∧
    Char.ofNat 10 ∉ strChars "f" ∧
    applyPatch (strChars "a")
      (formatUnifiedDiff
        (computeDiff (strChars "f") (some (strChars "a"))
          (some (strChars "b")))) = some (strChars "b") :=
  ⟨by decide, by decide, by decide,
    formatUnifiedDiff_roundtrip (strChars "f") (strChars "a") (strChars "b")
      (by decide) (by decide) (by decide)⟩
